import Mathlib

/-!
Verification development for the BeHeaded header tool.

Shallow embedding of `src/beheaded/core.py` and `src/pyhead_tui.py`.
Python strings are modeled as Lean `String`s over their `List Char` data.
A file's contents are modeled as the list of its physical lines, without the
trailing newline terminator that `readlines` keeps and the writers re-append.
Python's whitespace and line-break classification is modeled over the
characters listed in `isPyWs` / `isLineBreakCh` (the Unicode space categories
beyond those are not reachable from any input considered here), and regex
`\d` / `str.isdigit` are modeled as ASCII digits.  Impure values (the
`os.path.getmtime`-derived timestamp and `datetime.now()`) are passed in as
explicit parameters.
-/

namespace BeHeaded

/-- Characters accepted by Python's `str.strip` family and regex `\s`
(`str.isspace`), restricted to the code points listed. -/
def isPyWs (c : Char) : Bool :=
  c == ' ' || c == '\t' || c == '\n' || c == '\x0b' || c == '\x0c' || c == '\r' ||
  c == '\x1c' || c == '\x1d' || c == '\x1e' || c == '\x1f' || c == '\x85' || c == '\xa0' ||
  c == ' ' || (' ' ≤ c && c ≤ ' ') || c == ' ' || c == ' ' ||
  c == ' ' || c == ' ' || c == '　'

/-- Line-break characters recognized by Python's `str.splitlines`. -/
def isLineBreakCh (c : Char) : Bool :=
  c == '\n' || c == '\r' || c == '\x0b' || c == '\x0c' ||
  c == '\x1c' || c == '\x1d' || c == '\x1e' || c == '\x85' || c == ' ' || c == ' '

/-- ASCII uppercase letter, the character class `[A-Z]` of `KEY_RE`. -/
def isUpperCh (c : Char) : Bool := 'A' ≤ c && c ≤ 'Z'

/-- ASCII digit, modeling regex `\d` and `str.isdigit`. -/
def isDigitCh (c : Char) : Bool := '0' ≤ c && c ≤ '9'

/-- Drop the trailing characters of `l` satisfying `p`. -/
def dropTrailing (p : Char → Bool) (l : List Char) : List Char :=
  (l.reverse.dropWhile p).reverse

/-- Python `str.rstrip()` (no argument): drop trailing whitespace. -/
def pyRstrip (s : String) : String := ⟨dropTrailing isPyWs s.data⟩

/-- Python `str.lstrip()` (no argument): drop leading whitespace. -/
def pyLstrip (s : String) : String := ⟨s.data.dropWhile isPyWs⟩

/-- Python `str.strip()` (no argument). -/
def pyStrip (s : String) : String :=
  ⟨((s.data.dropWhile isPyWs).reverse.dropWhile isPyWs).reverse⟩

/-- Python `s.rstrip("\n")`: drop trailing newline characters only. -/
def rstripNL (s : String) : String := ⟨dropTrailing (fun c => c == '\n') s.data⟩

/-- Python `s.startswith(p)`. -/
def pyStartsWith (s p : String) : Bool := p.data.isPrefixOf s.data

/-- ASCII model of uppercasing one character (`str.upper`). -/
def chUpper (c : Char) : Char := if 'a' ≤ c && c ≤ 'z' then Char.ofNat (c.toNat - 32) else c

/-- ASCII model of lowercasing one character (`str.lower`). -/
def chLower (c : Char) : Char := if 'A' ≤ c && c ≤ 'Z' then Char.ofNat (c.toNat + 32) else c

/-- Python `str.upper()` (ASCII model). -/
def pyUpper (s : String) : String := ⟨s.data.map chUpper⟩

/-- Python `str.lower()` (ASCII model). -/
def pyLower (s : String) : String := ⟨s.data.map chLower⟩

/-- Helper for `pySplitlines`: accumulates the current line in reverse. -/
def splitlinesAux : List Char → List Char → List (List Char)
  | [], acc => if acc.isEmpty then [] else [acc.reverse]
  | '\r' :: '\n' :: cs, acc => acc.reverse :: splitlinesAux cs []
  | c :: cs, acc =>
    if isLineBreakCh c then acc.reverse :: splitlinesAux cs []
    else splitlinesAux cs (c :: acc)

/-- Python `str.splitlines()`. -/
def pySplitlines (s : String) : List String := (splitlinesAux s.data []).map (fun l => ⟨l⟩)

/-- Python `"\n".join(lines)`. -/
def joinNL : List String → String
  | [] => ""
  | [s] => s
  | s :: rest => s ++ "\n" ++ joinNL rest

/-- Lookup in an insertion-ordered dictionary modeled as an association list
(Python `dict` access / `dict.get`). -/
def dictGet {β : Type} (d : List (String × β)) (k : String) : Option β :=
  match d with
  | [] => none
  | kv :: rest => if kv.1 == k then some kv.2 else dictGet rest k

/-- Assignment `d[k] = v` on an insertion-ordered dictionary: an existing key
keeps its position and gets the new value, a fresh key is appended. -/
def dictSet {β : Type} (d : List (String × β)) (k : String) (v : β) : List (String × β) :=
  match d with
  | [] => [(k, v)]
  | kv :: rest => if kv.1 == k then (k, v) :: rest else kv :: dictSet rest k v

/-- Python `os.path.basename` for POSIX paths: the part after the last slash. -/
def basename (p : String) : String :=
  ⟨(p.data.reverse.takeWhile (fun c => c != '/')).reverse⟩

/-- Decimal value of a digit run (Python `int` applied to a digit string). -/
def digitsToNat (l : List Char) : Nat := l.foldl (fun acc c => acc * 10 + (c.toNat - 48)) 0

/-- Split a character list on a separator character (used for `VERSION_RE`). -/
def splitOnCh (ch : Char) : List Char → List (List Char)
  | [] => [[]]
  | c :: cs =>
    let r := splitOnCh ch cs
    if c == ch then [] :: r
    else
      match r with
      | x :: xs => (c :: x) :: xs
      | [] => [[c]]

/-- JSON values as produced by `json.load`, with numbers restricted to the
integers (no claim involves fractional defaults).  Python `bool` is a
subclass of `int`, which `get_wrap_width_from_defaults` relies on. -/
inductive JsonDoc
  | jnull
  | jbool (b : Bool)
  | jnum (n : Int)
  | jstr (s : String)
  | jarr (xs : List JsonDoc)
  | jobj (kvs : List (String × JsonDoc))
deriving Repr

mutual

/-- Python `repr` of a JSON-loaded value (string escaping inside `repr` of a
`str` is not modeled; no claim stringifies a string containing quotes). -/
def jsonReprStr : JsonDoc → String
  | .jnull => "None"
  | .jbool b => if b then "True" else "False"
  | .jnum n => toString n
  | .jstr s => "'" ++ s ++ "'"
  | .jarr xs => "[" ++ joinCommaSep (jsonReprList xs) ++ "]"
  | .jobj kvs => "\x7b" ++ joinCommaSep (jsonReprPairs kvs) ++ "\x7d"

def jsonReprList : List JsonDoc → List String
  | [] => []
  | x :: xs => jsonReprStr x :: jsonReprList xs

def jsonReprPairs : List (String × JsonDoc) → List String
  | [] => []
  | kv :: kvs => ("'" ++ kv.1 ++ "': " ++ jsonReprStr kv.2) :: jsonReprPairs kvs

def joinCommaSep : List String → String
  | [] => ""
  | [s] => s
  | s :: rest => s ++ ", " ++ joinCommaSep rest

end

/-- Python `str(v)` for a JSON-loaded value. -/
def pyStr : JsonDoc → String
  | .jstr s => s
  | d => jsonReprStr d

/-- Python truthiness of a JSON-loaded value (used by `or` chains). -/
def jsonTruthy : JsonDoc → Bool
  | .jnull => false
  | .jbool b => b
  | .jnum n => n != 0
  | .jstr s => s != ""
  | .jarr xs => !xs.isEmpty
  | .jobj kvs => !kvs.isEmpty

/-- Python `v not in (None, "")`: tuple membership is by equality, and only
`None` and the empty string compare equal to those two elements. -/
def notNoneOrEmpty : JsonDoc → Bool
  | .jnull => false
  | .jstr s => s != ""
  | _ => true

/-- Observable state of a folder's `.BeHeaders.json` file as seen by
`read_bejson_for_folder`: absent, unreadable (I/O error), syntactically
invalid JSON, or a parsed document. -/
inductive BejsonFile
  | missing
  | unreadable
  | badJson
  | content (d : JsonDoc)
deriving Repr

/-- Embedding of `read_bejson_for_folder`.  The first component is the
returned defaults mapping (keys upper-cased, last assignment wins as in a
Python dict); the second records whether the function attempts to create the
missing file with an empty JSON object. -/
def read_bejson_for_folder : BejsonFile → List (String × JsonDoc) × Bool
  | .missing => ([], true)
  | .unreadable => ([], false)
  | .badJson => ([], false)
  | .content d =>
    match d with
    | .jobj kvs => (kvs.foldl (fun out kv => dictSet out (pyUpper kv.1) kv.2) [], false)
    | _ => ([], false)

/-- The fixed key order of `core.py`. -/
def DEFAULT_ORDER : List String := ["MISSION", "STATUS", "VERSION", "NOTES", "DATE", "FILE", "AUTHOR"]

/-- Default wrap width of `core.py`. -/
def DEFAULT_WRAP : Int := 72

/-- Embedding of `get_wrap_width_from_defaults`.  `isinstance(w, int)` is true
for Python booleans (a subclass of `int`), and `str.isdigit` is modeled over
ASCII digits. -/
def get_wrap_width_from_defaults (folder_defaults : List (String × JsonDoc)) : Int :=
  match dictGet folder_defaults "WRAP_WIDTH" with
  | some (.jnum n) => n
  | some (.jbool b) => if b then 1 else 0
  | some (.jstr s) =>
    if s != "" && s.data.all isDigitCh then (digitsToNat s.data : Int) else DEFAULT_WRAP
  | _ => DEFAULT_WRAP

/-- Embedding of `file_mtime_string`: `mtimeEnv` is the
`strftime("%Y-%m-%d %H:%M:%S")` rendering of the file's mtime when
`os.path.getmtime` succeeds, and `none` models the exception path, where the
same rendering of `datetime.now()` (the `now` parameter) is returned. -/
def file_mtime_string (mtimeEnv : Option String) (now : String) : String :=
  match mtimeEnv with
  | some s => s
  | none => now

/-- The `Header` class of `core.py`: insertion-ordered keys, a key-to-value
dictionary, and the raw comment lines of the parsed block. -/
structure Header where
  key_order : List String := []
  values : List (String × String) := []
  raw_comment_lines : List String := []
deriving Repr, DecidableEq

/-- Embedding of `Header.set`. -/
def Header.set (h : Header) (key value : String) : Header :=
  let k := pyUpper key
  { h with
    key_order := if h.key_order.contains k then h.key_order else h.key_order ++ [k],
    values := dictSet h.values k value }

/-- Embedding of `Header.get`. -/
def Header.get (h : Header) (key : String) : Option String :=
  dictGet h.values (pyUpper key)

/-- Embedding of `Header.has`. -/
def Header.has (h : Header) (key : String) : Bool :=
  (dictGet h.values (pyUpper key)).isSome

/-- The inner `default_for` closure of `Header.to_ordered_list`. -/
def default_for (folder_defaults : List (String × JsonDoc)) (file_path : Option String)
    (mtimeEnv : Option String) (now : String) (k : String) : String :=
  let ku := pyUpper k
  if ku == "FILE" then
    match file_path with
    | some p => basename p
    | none => "tbd."
  else
    let fallb : String :=
      if ku == "VERSION" then "0.0.0"
      else if ku == "DATE" then
        match file_path with
        | some _ => file_mtime_string mtimeEnv now
        | none => now
      else "tbd."
    match dictGet folder_defaults ku with
    | some v => if notNoneOrEmpty v then pyStr v else fallb
    | none => fallb

/-- Value picked for a fixed required key by the first loop of
`Header.to_ordered_list`: the stored value if present (`FILE` overridden by
the base name), else `default_for`. -/
def fixedVal (h : Header) (folder_defaults : List (String × JsonDoc))
    (file_path : Option String) (mtimeEnv : Option String) (now : String)
    (k : String) : String :=
  match dictGet h.values k with
  | none => default_for folder_defaults file_path mtimeEnv now k
  | some v =>
    if k == "FILE" then
      match file_path with
      | some p => basename p
      | none => default_for folder_defaults file_path mtimeEnv now k
    else v

/-- Loop body of the `self.key_order` pass of `to_ordered_list` (the `seen`
set is the first component). -/
def seenStepKey (vals : List (String × String)) (df : String → String)
    (acc : List String × List (String × String)) (k : String) :
    List String × List (String × String) :=
  if acc.1.contains k then acc
  else (acc.1 ++ [k], acc.2 ++ [(k, (dictGet vals k).getD (df k))])

/-- Loop body of the `self.values` pass of `to_ordered_list`. -/
def seenStepPair (acc : List String × List (String × String)) (kv : String × String) :
    List String × List (String × String) :=
  if acc.1.contains kv.1 then acc
  else (acc.1 ++ [kv.1], acc.2 ++ [kv])

/-- Embedding of `Header.to_ordered_list`.  The first pass maps over
`DEFAULT_ORDER`, the second folds over `self.key_order`, the third over
`self.values` keys (reading the pair's own value); `seen` is carried as the
first component of the accumulator. -/
def Header.to_ordered_list (h : Header) (folder_defaults : List (String × JsonDoc))
    (file_path : Option String) (mtimeEnv : Option String) (now : String) :
    List (String × String) :=
  let df := default_for folder_defaults file_path mtimeEnv now
  let fixed := DEFAULT_ORDER.map (fun k => (k, fixedVal h folder_defaults file_path mtimeEnv now k))
  let acc2 := h.key_order.foldl (seenStepKey h.values df) (DEFAULT_ORDER, fixed)
  let acc3 := h.values.foldl seenStepPair acc2
  acc3.2

/-- Match of `KEY_RE = ^([A-Z]+):\s?(.*)$` against a single line: the maximal
leading run of ASCII uppercase letters, a colon, at most one whitespace
character, and the remainder as group 2. -/
def keyReMatch (s : String) : Option (String × String) :=
  let key := s.data.takeWhile isUpperCh
  if key.isEmpty then none
  else
    match s.data.dropWhile isUpperCh with
    | ':' :: r =>
      let r' := match r with
        | c :: cs => if isPyWs c then cs else r
        | [] => []
      some (⟨key⟩, ⟨r'⟩)
    | _ => none

/-- Comment-character stripping of `parse_header_from_lines`: drop one leading
`#`, then at most one following space, then trailing newlines; a line not
starting with `#` (e.g. indented comments) is taken whole. -/
def extractContent (c : String) : String :=
  if pyStartsWith c "#" then
    let c1 : String := ⟨c.data.drop 1⟩
    let c2 : String := if pyStartsWith c1 " " then ⟨c1.data.drop 1⟩ else c1
    rstripNL c2
  else c

/-- Loop state of `parse_header_from_lines`: the open key with its collected
value lines, and the header built so far. -/
structure PHState where
  cur : Option (String × List String) := none
  hdr : Header := {}
deriving Repr, DecidableEq

/-- One iteration of the comment-line loop of `parse_header_from_lines`. -/
def phStep (st : PHState) (c : String) : PHState :=
  let content := extractContent c
  match keyReMatch content with
  | some kv =>
    let hdr := match st.cur with
      | some cur => st.hdr.set cur.1 (pyRstrip (joinNL cur.2))
      | none => st.hdr
    { cur := some (pyUpper kv.1, [pyRstrip kv.2]), hdr := hdr }
  | none =>
    match st.cur with
    | some cur => { st with cur := some (cur.1, cur.2 ++ [pyRstrip content]) }
    | none =>
      if st.hdr.has "PREAMBLE" then
        let pv := ((st.hdr.get "PREAMBLE").getD "") ++ "\n" ++ pyRstrip content
        { st with hdr := st.hdr.set "PREAMBLE" pv }
      else
        { st with hdr := st.hdr.set "PREAMBLE" (pyRstrip content) }

/-- Closing step after the loop: flush the still-open key. -/
def phFinish (st : PHState) : Header :=
  match st.cur with
  | some cur => st.hdr.set cur.1 (pyRstrip (joinNL cur.2))
  | none => st.hdr

/-- Comment-line test of both parsers: `line.lstrip().startswith("#")`. -/
def isCommentLine (l : String) : Bool := pyStartsWith (pyLstrip l) "#"

/-- Embedding of `parse_header_from_lines`. -/
def parse_header_from_lines (lines : List String) : Option String × Header × List String :=
  match lines with
  | [] => (none, {}, [])
  | l0 :: _ =>
    let sheb : Option String × Nat :=
      if pyStartsWith l0 "#!" then (some (rstripNL l0), 1) else (none, 0)
    let body := lines.drop sheb.2
    let commentBlock := (body.takeWhile isCommentLine).map rstripNL
    let rest := (body.dropWhile isCommentLine).map rstripNL
    let stFinal := commentBlock.foldl phStep {}
    (sheb.1, { phFinish stFinal with raw_comment_lines := commentBlock }, rest)

/-- Tab expansion of Python `str.expandtabs(8)` (column resets on `\n`/`\r`). -/
def expandTabsAux (tabsize : Nat) : Nat → List Char → List Char
  | _, [] => []
  | col, c :: cs =>
    if c == '\t' then
      let k := tabsize - col % tabsize
      List.replicate k ' ' ++ expandTabsAux tabsize (col + k) cs
    else if c == '\n' || c == '\r' then c :: expandTabsAux tabsize 0 cs
    else c :: expandTabsAux tabsize (col + 1) cs

/-- The `_munge_whitespace` step of `textwrap`: expand tabs, then replace each
of `\t\n\x0b\x0c\r` by a space. -/
def mungeWhitespace (s : String) : String :=
  ⟨(expandTabsAux 8 0 s.data).map (fun c =>
    if c == '\t' || c == '\n' || c == '\x0b' || c == '\x0c' || c == '\r' then ' ' else c)⟩

/-- Split into maximal runs of whitespace / non-whitespace characters, the
chunk stream of `textwrap` (the `break_on_hyphens` refinement, which can
additionally split a hyphenated word, is not modeled; no claim input
contains hyphens). -/
def splitChunksAux : List Char → List (List Char)
  | [] => []
  | c :: cs =>
    match splitChunksAux cs with
    | [] => [[c]]
    | r :: rs =>
      match r with
      | [] => [[c]]
      | d :: _ => if isPyWs c == isPyWs d then (c :: r) :: rs else [c] :: r :: rs

def splitChunks (s : String) : List String := (splitChunksAux s.data).map (fun l => ⟨l⟩)

/-- Whitespace-only chunk test (`chunk.strip() == ''`). -/
def isWsChunk (c : String) : Bool := pyStrip c == ""

/-- Greedy collection of chunks onto the current line while the running
length stays within `width`; returns (taken, running length, remaining). -/
def greedyTake (width : Nat) : Nat → List String → List String × Nat × List String
  | curLen, [] => ([], curLen, [])
  | curLen, c :: cs =>
    if curLen + c.data.length ≤ width then
      let r := greedyTake width (curLen + c.data.length) cs
      (c :: r.1, r.2.1, r.2.2)
    else ([], curLen, c :: cs)

/-- Concatenation `''.join(cur_line)`. -/
def strConcat (l : List String) : String := l.foldl (fun a b => a ++ b) ""

/-- The `_wrap_chunks` loop of `textwrap` with the default options
(`drop_whitespace`, `break_long_words`; `max_lines=None`), fuel-indexed.
Python raises for `width <= 0`; callers of the embedding only depend on
positive widths. -/
def wrapChunksAux (width : Nat) : Nat → List String → List String → List String
  | 0, _, acc => acc.reverse
  | _ + 1, [], acc => acc.reverse
  | fuel + 1, c0 :: ctail, acc =>
    let chunks1 := if !acc.isEmpty && isWsChunk c0 then ctail else c0 :: ctail
    match chunks1 with
    | [] => acc.reverse
    | _ =>
      let g := greedyTake width 0 chunks1
      let hl : List String × List String :=
        match g.2.2 with
        | c :: cs =>
          if width < c.data.length then
            let spaceLeft := if width < 1 then 1 else width - g.2.1
            (g.1 ++ [⟨c.data.take spaceLeft⟩], (⟨c.data.drop spaceLeft⟩ : String) :: cs)
          else (g.1, g.2.2)
        | [] => (g.1, g.2.2)
      let cur2 :=
        match hl.1.getLast? with
        | some last => if isWsChunk last then hl.1.dropLast else hl.1
        | none => hl.1
      let acc' := if cur2.isEmpty then acc else strConcat cur2 :: acc
      wrapChunksAux width fuel hl.2 acc'

/-- Embedding of `textwrap.wrap(text, width)` with default options. -/
def wrapText (width : Nat) (text : String) : List String :=
  let m := mungeWhitespace text
  let chunks := splitChunks m
  wrapChunksAux width (m.data.length + chunks.length + 8) chunks []

/-- Continuation-line rendering `f"# {l}" if l != "" else "#"`. -/
def contLine (m : String) : String := if m == "" then "#" else "# " ++ m

/-- Rendering of one `(key, value)` pair inside `write_header_to_file`. -/
def renderEntry (ww : Nat) (key val : String) : List String :=
  if key == "PREAMBLE" then (pySplitlines val).map contLine
  else if key == "MISSION" then
    let w := wrapText ww val
    let wrapped := if w.isEmpty then [""] else w
    match wrapped with
    | first :: restw => ("# " ++ key ++ ": " ++ first) :: restw.map (fun l => "# " ++ l)
    | [] => ["# " ++ key ++ ":"]
  else
    match pySplitlines val with
    | first :: restl =>
      (if first == "" then "# " ++ key ++ ":" else "# " ++ key ++ ": " ++ first)
        :: restl.map contLine
    | [] => ["# " ++ key ++ ":"]

/-- Rendering of the whole ordered list. -/
def renderAll (ww : Nat) : List (String × String) → List String
  | [] => []
  | kv :: rest => renderEntry ww kv.1 kv.2 ++ renderAll ww rest

/-- Embedding of `write_header_to_file`: the result is the list of lines the
function writes back to `path` (each physically terminated by one newline
after an `rstrip("\n")`).  The function re-reads the file (`origLines`) to
recover the body after the header. -/
def write_header_to_file (path : String) (shebang : Option String) (header : Header)
    (folder_defaults : List (String × JsonDoc)) (mtimeEnv : Option String) (now : String)
    (origLines : List String) : List String :=
  let rest := (parse_header_from_lines (origLines.map rstripNL)).2.2
  let header := header.set "FILE" (basename path)
  let ordered := header.to_ordered_list folder_defaults (some path) mtimeEnv now
  let ww := (get_wrap_width_from_defaults folder_defaults).toNat
  let shebangLines := match shebang with
    | some s => [rstripNL s]
    | none => ([] : List String)
  let out := shebangLines ++ renderAll ww ordered ++ ["#"] ++ rest
  out.map rstripNL

/-- The `or` chain selecting the version source in the bump functions:
`header.get("VERSION") or folder_defaults.get("VERSION") or "0.0.0"`,
followed by `str(...)`. -/
def oldVersionOf (h : Header) (folder_defaults : List (String × JsonDoc)) : String :=
  let fdv : String :=
    match dictGet folder_defaults "VERSION" with
    | some v => if jsonTruthy v then pyStr v else "0.0.0"
    | none => "0.0.0"
  match h.get "VERSION" with
  | some v => if v != "" then v else fdv
  | none => fdv

/-- Match of `VERSION_RE = ^(\d+)\.(\d+)\.(\d+)$` plus `int` conversion. -/
def parseVersion (s : String) : Option (Nat × Nat × Nat) :=
  match splitOnCh '.' s.data with
  | [a, b, c] =>
    if (!a.isEmpty && a.all isDigitCh) && (!b.isEmpty && b.all isDigitCh)
        && (!c.isEmpty && c.all isDigitCh) then
      some (digitsToNat a, digitsToNat b, digitsToNat c)
    else none
  | _ => none

/-- Rendering `f"{major}.{minor}.{patch}"`. -/
def showVer (a b c : Nat) : String := toString a ++ "." ++ toString b ++ "." ++ toString c

/-- Pure core of `bump_version_in_file`: the new version string, or `none`
for the `return False` branch on an unknown part token (taken before any
mutation). -/
def bump_version_in_file (h : Header) (folder_defaults : List (String × JsonDoc))
    (part : String) : Option String :=
  let t := (parseVersion (pyStrip (oldVersionOf h folder_defaults))).getD (0, 0, 0)
  if part == "major" then some (showVer (t.1 + 1) 0 0)
  else if part == "minor" then some (showVer t.1 (t.2.1 + 1) 0)
  else if part == "patch" then some (showVer t.1 t.2.1 (t.2.2 + 1))
  else none

/-- File-level run of `bump_version_in_file` on one file's lines: the returned
boolean and the file's final contents (unchanged on rejection). -/
def bump_version_in_file_run (path : String) (folder_defaults : List (String × JsonDoc))
    (mtimeEnv : Option String) (now : String) (part : String)
    (origLines : List String) : Bool × List String :=
  let p := parse_header_from_lines (origLines.map rstripNL)
  match bump_version_in_file p.2.1 folder_defaults part with
  | none => (false, origLines)
  | some newv =>
    (true, write_header_to_file path p.1 (p.2.1.set "VERSION" newv)
      folder_defaults mtimeEnv now origLines)

/-- New version computed by the loop body of `bump_version_in_tree`: its
`if/elif/else` has no rejection branch, the final `else` increments patch. -/
def bump_tree_newv (h : Header) (folder_defaults : List (String × JsonDoc))
    (part : String) : String :=
  let t := (parseVersion (pyStrip (oldVersionOf h folder_defaults))).getD (0, 0, 0)
  if part == "major" then showVer (t.1 + 1) 0 0
  else if part == "minor" then showVer t.1 (t.2.1 + 1) 0
  else showVer t.1 t.2.1 (t.2.2 + 1)

/-- One iteration of the per-file loop of `bump_version_in_tree`: the entry
appended to `changed` (if any) and the file contents written (if any). -/
def bump_version_in_tree_step (f : String) (folder_defaults : List (String × JsonDoc))
    (mtimeEnv : Option String) (now : String) (part : String) (dry_run : Bool)
    (origLines : List String) : Option String × Option (List String) :=
  let p := parse_header_from_lines (origLines.map rstripNL)
  let h := p.2.1
  let oldv := oldVersionOf h folder_defaults
  let newv := bump_tree_newv h folder_defaults part
  if pyStrip oldv != newv then
    (some (f ++ ": " ++ oldv ++ " -> " ++ newv),
     if dry_run then none
     else some (write_header_to_file f p.1 (h.set "VERSION" newv)
       folder_defaults mtimeEnv now origLines))
  else (none, none)

/-- One iteration of the `DEFAULT_ORDER` loop of `add_default_header_to_file`. -/
def addDefaultKey (path : String) (folder_defaults : List (String × JsonDoc))
    (mtimeEnv : Option String) (now : String) (acc : Header × Bool) (k : String) :
    Header × Bool :=
  let h := acc.1
  if h.has k then acc
  else
    let fallb : Header :=
      if k == "VERSION" then h.set k "0.0.0"
      else if k == "DATE" then h.set k (file_mtime_string mtimeEnv now)
      else h.set k "tbd."
    let h' :=
      if k == "FILE" then h.set k (basename path)
      else
        match dictGet folder_defaults k with
        | some v => if notNoneOrEmpty v then h.set k (pyStr v) else fallb
        | none => fallb
    (h', true)

/-- Embedding of `add_default_header_to_file`: the returned boolean and the
file contents written back (or `none` when nothing is written). -/
def add_default_header_to_file (path : String) (folder_defaults : List (String × JsonDoc))
    (mtimeEnv : Option String) (now : String) (origLines : List String)
    (dry_run : Bool) : Bool × Option (List String) :=
  let p := parse_header_from_lines (origLines.map rstripNL)
  let hc := DEFAULT_ORDER.foldl (addDefaultKey path folder_defaults mtimeEnv now) (p.2.1, false)
  let header := hc.1.set "FILE" (basename path)
  let changed := hc.2
  if changed && !dry_run then
    (true, some (write_header_to_file path p.1 header folder_defaults mtimeEnv now origLines))
  else if !changed then
    if header.get "FILE" != some (basename path) then
      (true, if dry_run then none
             else some (write_header_to_file path p.1 header folder_defaults mtimeEnv now origLines))
    else (false, none)
  else (changed, none)

namespace PyheadTui

/-- The `PYHEAD_TAG_TRANSFORM` modes of `pyhead_tui._normalize_tag`. -/
inductive TagMode
  | snake
  | lower
  | preserve
deriving Repr, DecidableEq

/-- Replace each maximal run of whitespace by one underscore
(`re.sub(r"\s+", "_", tag)`); the boolean tracks being inside a run. -/
def wsRunsAux : Bool → List Char → List Char
  | _, [] => []
  | inRun, c :: cs =>
    if isPyWs c then
      if inRun then wsRunsAux true cs else '_' :: wsRunsAux true cs
    else c :: wsRunsAux false cs

def wsRunsToUnderscore (s : String) : String := ⟨wsRunsAux false s.data⟩

/-- Embedding of `pyhead_tui._normalize_tag`. -/
def normalize_tag (mode : TagMode) (tagRaw : String) : String :=
  let tag := pyStrip tagRaw
  match mode with
  | .preserve => tag
  | .lower => pyLower tag
  | .snake => pyLower (wsRunsToUnderscore tag)

/-- Match of `^\s*([^\s:]+)\s*:\s*(.*)$` against one content line. -/
def firstwordColonMatch (s : String) : Option (String × String) :=
  let l := s.data.dropWhile isPyWs
  let tok := l.takeWhile (fun c => !isPyWs c && c != ':')
  if tok.isEmpty then none
  else
    match (l.drop tok.length).dropWhile isPyWs with
    | ':' :: r => some (⟨tok⟩, ⟨r.dropWhile isPyWs⟩)
    | _ => none

/-- Comment stripping of `pyhead_tui.parse_header`: `lstrip`, then one `#`,
then at most one space, then `rstrip("\n")`. -/
def tuiExtract (raw : String) : String :=
  let c0 := pyLstrip raw
  let c1 : String := if pyStartsWith c0 "#" then ⟨c0.data.drop 1⟩ else c0
  let c2 : String := if pyStartsWith c1 " " then ⟨c1.data.drop 1⟩ else c1
  rstripNL c2

/-- Loop state of `pyhead_tui.parse_header`. -/
structure TuiState where
  preamble : List String := []
  tags : List (String × List String) := []
  cur : Option String := none
deriving Repr, DecidableEq

/-- Python `tags.setdefault(k, [])`. -/
def odSetdefault (d : List (String × List String)) (k : String) :
    List (String × List String) :=
  if (dictGet d k).isSome then d else d ++ [(k, [])]

/-- Python `tags[k].append(v)` (the key is always present when called). -/
def odAppendVal (d : List (String × List String)) (k : String) (v : String) :
    List (String × List String) :=
  match d with
  | [] => []
  | kv :: rest =>
    if kv.1 == k then (kv.1, kv.2 ++ [v]) :: rest else kv :: odAppendVal rest k v

/-- One iteration of the header-line loop of `pyhead_tui.parse_header`. -/
def tuiStep (mode : TagMode) (st : TuiState) (raw : String) : TuiState :=
  let content := tuiExtract raw
  if pyStartsWith (pyStrip content) ":" then
    let tagPart := pyStrip ⟨(pyStrip content).data.drop 1⟩
    if tagPart == "" then { st with cur := none }
    else
      let tagKey := normalize_tag mode tagPart
      { st with tags := odSetdefault st.tags tagKey, cur := some tagKey }
  else
    match firstwordColonMatch content with
    | some tr =>
      let tagKey := normalize_tag mode (pyStrip tr.1)
      let rest := pyRstrip tr.2
      let tags1 := odSetdefault st.tags tagKey
      let tags2 := if rest != "" then odAppendVal tags1 tagKey rest else tags1
      { st with tags := tags2, cur := some tagKey }
    | none =>
      match st.cur with
      | none => { st with preamble := st.preamble ++ [content] }
      | some t => { st with tags := odAppendVal st.tags t content }

/-- Embedding of `pyhead_tui.parse_header`: shebang, header end index,
preamble lines, and the ordered tag map. -/
def parse_header (mode : TagMode) (lines : List String) :
    Option String × Nat × List String × List (String × List String) :=
  match lines with
  | [] => (none, 0, [], [])
  | l0 :: _ =>
    let sheb : Option String × Nat :=
      if pyStartsWith l0 "#!" then (some (rstripNL l0), 1) else (none, 0)
    let body := lines.drop sheb.2
    let headerLines := (body.takeWhile isCommentLine).map rstripNL
    let stF := headerLines.foldl (tuiStep mode) {}
    (sheb.1, sheb.2 + headerLines.length, stF.preamble, stF.tags)

end PyheadTui

/-- Keys that survive the serialize/parse cycle: nonempty, ASCII uppercase. -/
def isUpperAlpha (s : String) : Bool := !s.data.isEmpty && s.data.all isUpperCh

/-- Values in parser normal form: joining their split lines back with `\n`
and right-stripping reproduces the value, and each line is right-stripped. -/
def normalVal (v : String) : Bool :=
  pyRstrip (joinNL (pySplitlines v)) == v && (pySplitlines v).all (fun l => pyRstrip l == l)

/-- No continuation line of the value re-parses as a key line. -/
def noKeyLikeCont (v : String) : Bool :=
  (pySplitlines v).tail.all (fun l => (keyReMatch l).isNone)

/-- The value-line list that `parse_header_from_lines` accumulates for a key
whose serialized value is `v`: the physical lines of `v`, or a single empty
line when `v` has none. -/
def entryLinesOf (v : String) : List String :=
  match pySplitlines v with
  | [] => [""]
  | l => l

/-- An ordered-list entry that serializes and reparses without interference:
an uppercase key other than `PREAMBLE`, a value in parser normal form whose
continuation lines are not key-shaped, and (for `MISSION`) a value that the
word-wrapper leaves on its own physical lines. -/
def goodEntryP (ww : Nat) (kv : String × String) : Prop :=
  isUpperAlpha kv.1 = true ∧ kv.1 ≠ "PREAMBLE" ∧ normalVal kv.2 = true ∧
  noKeyLikeCont kv.2 = true ∧
  (kv.1 = "MISSION" → wrapText ww kv.2 = pySplitlines kv.2)

/-- Strict tuple order on (major, minor, patch). -/
def verLt (a b : Nat × Nat × Nat) : Prop :=
  a.1 < b.1 ∨ (a.1 = b.1 ∧ (a.2.1 < b.2.1 ∨ (a.2.1 = b.2.1 ∧ a.2.2 < b.2.2)))

instance : DecidablePred (fun p : (Nat × Nat × Nat) × Nat × Nat × Nat => verLt p.1 p.2) :=
  fun _ => by unfold verLt; infer_instance

instance (a b : Nat × Nat × Nat) : Decidable (verLt a b) := by unfold verLt; infer_instance

/-- Elements selected by a seen-guarded fold: keep an element whose key is not
yet seen, extending the seen set as we go. -/
def guardedNew {α : Type} (key : α → String) : List String → List α → List α
  | _, [] => []
  | seen, x :: xs =>
    if seen.contains (key x) then guardedNew key seen xs
    else x :: guardedNew key (seen ++ [key x]) xs

/-- Folder defaults provide no usable value for `k` (absent, `None`, or `""`). -/
def fdMissingOrEmpty (fd : List (String × JsonDoc)) (k : String) : Bool :=
  match dictGet fd k with
  | none => true
  | some dv => !notNoneOrEmpty dv

theorem dictGet_append {β : Type} (d₁ d₂ : List (String × β)) (k : String) :
    dictGet (d₁ ++ d₂) k =
      match dictGet d₁ k with
      | some v => some v
      | none => dictGet d₂ k := by
  induction d₁ with
  | nil => simp [dictGet]
  | cons kv rest ih =>
    by_cases hk : kv.1 == k <;> simp [dictGet, hk, ih]

theorem dictGet_dictSet_self {β : Type} (d : List (String × β)) (k : String) (v : β) :
    dictGet (dictSet d k v) k = some v := by
  induction d with
  | nil => simp [dictGet, dictSet]
  | cons kv rest ih =>
    by_cases hk : kv.1 == k <;> simp [dictGet, dictSet, hk, ih]

theorem dictGet_dictSet_ne {β : Type} (d : List (String × β)) (k k' : String) (v : β)
    (h : k ≠ k') : dictGet (dictSet d k v) k' = dictGet d k' := by
  induction d with
  | nil => simp [dictGet, dictSet, h]
  | cons kv rest ih =>
    by_cases hk : kv.1 == k
    · have : kv.1 = k := by simpa using hk
      subst this
      simp [dictGet, dictSet, hk, h, ih]
    · simp [dictGet, dictSet, hk, ih]

theorem dictSet_of_get_none {β : Type} (d : List (String × β)) (k : String) (v : β)
    (h : dictGet d k = none) : dictSet d k v = d ++ [(k, v)] := by
  induction d with
  | nil => simp [dictSet]
  | cons kv rest ih =>
    by_cases hk : kv.1 == k
    · simp [dictGet, hk] at h
    · simp [dictGet, hk] at h
      simp [dictSet, hk, ih h]

theorem dictGet_map_self {β : Type} (l : List String) (f : String → β) (k : String)
    (hk : k ∈ l) : dictGet (l.map (fun x => (x, f x))) k = some (f k) := by
  induction l with
  | nil => cases hk
  | cons x xs ih =>
    rcases List.mem_cons.mp hk with h | h
    · subst h; simp [dictGet]
    · by_cases hx : x == k
      · have : x = k := by simpa using hx
        subst this; simp [dictGet]
      · simp [dictGet, hx, ih h]

theorem takeWhile_append_all {p : α → Bool} {l₁ : List α} (l₂ : List α)
    (h₁ : ∀ a ∈ l₁, p a = true) {x : α} (hx : p x = false) :
    (l₁ ++ x :: l₂).takeWhile p = l₁ := by
  induction l₁ with
  | nil => simp [List.takeWhile, hx]
  | cons a l ih =>
    have ha : p a = true := h₁ a (List.mem_cons_self a l)
    simp only [List.cons_append, List.takeWhile_cons, ha, if_true]
    exact congrArg (a :: ·) (ih (fun b hb => h₁ b (List.mem_cons_of_mem a hb)))

theorem dropWhile_append_all {p : α → Bool} {l₁ : List α} (l₂ : List α)
    (h₁ : ∀ a ∈ l₁, p a = true) {x : α} (hx : p x = false) :
    (l₁ ++ x :: l₂).dropWhile p = x :: l₂ := by
  induction l₁ with
  | nil => simp [List.dropWhile, hx]
  | cons a l ih =>
    have ha : p a = true := h₁ a (List.mem_cons_self a l)
    simp only [List.cons_append, List.dropWhile_cons, ha, if_true]
    exact ih (fun b hb => h₁ b (List.mem_cons_of_mem a hb))

theorem dropTrailing_eq_self {p : Char → Bool} {l : List Char}
    (h : ∀ c, l.getLast? = some c → p c = false) : dropTrailing p l = l := by
  unfold dropTrailing
  cases hr : l.reverse with
  | nil =>
    have : l = [] := by simpa using congrArg List.reverse hr
    simp [this]
  | cons c t =>
    have hc : l.getLast? = some c := by
      rw [← List.head?_reverse, hr]; rfl
    rw [List.dropWhile_cons_of_neg (by simp [h c hc])]
    rw [← hr, List.reverse_reverse]

theorem pyRstrip_last_not_ws {s : String} (h : pyRstrip s = s) :
    ∀ c, s.data.getLast? = some c → isPyWs c = false := by
  intro c hc
  by_contra hw
  have hw' : isPyWs c = true := by revert hw; cases isPyWs c <;> simp
  have hne : s.data.reverse ≠ [] := by
    intro hnil
    have : s.data = [] := by simpa using congrArg List.reverse hnil
    rw [this] at hc; cases hc
  obtain ⟨t, ht⟩ : ∃ t, s.data.reverse = c :: t := by
    cases hr : s.data.reverse with
    | nil => exact absurd hr hne
    | cons d t =>
      have hd : s.data.getLast? = some d := by rw [← List.head?_reverse, hr]; rfl
      rw [hc] at hd
      injection hd with hcd
      exact ⟨t, by rw [hcd]⟩
  have hlen : (dropTrailing isPyWs s.data).length < s.data.length := by
    unfold dropTrailing
    rw [ht, List.dropWhile_cons_of_pos hw']
    have h1 : (t.dropWhile isPyWs).length ≤ t.length :=
      (List.dropWhile_suffix isPyWs).sublist.length_le
    have h2 : s.data.length = t.length + 1 := by
      have h3 := congrArg List.length ht
      simpa [Nat.add_comm] using h3
    simp only [List.length_reverse]
    omega
  have : (pyRstrip s).data = s.data := congrArg String.data h
  rw [show (pyRstrip s).data = dropTrailing isPyWs s.data from rfl] at this
  rw [this] at hlen
  exact Nat.lt_irrefl _ hlen

theorem rstripNL_of_pyRstrip {s : String} (h : pyRstrip s = s) : rstripNL s = s := by
  have : dropTrailing (fun c => c == '\n') s.data = s.data := by
    apply dropTrailing_eq_self
    intro c hc
    have := pyRstrip_last_not_ws h c hc
    by_contra hne
    have : (c == '\n') = true := by revert hne; cases c == '\n' <;> simp
    have hcn : c = '\n' := by simpa using this
    subst hcn
    simp [isPyWs] at *
  unfold rstripNL
  rw [this]

theorem rstripNL_idem (s : String) : rstripNL (rstripNL s) = rstripNL s := by
  unfold rstripNL dropTrailing
  congr 1
  rw [List.reverse_reverse]
  rw [List.dropWhile_idempotent]

theorem strAppend_data (a b : String) : (a ++ b).data = a.data ++ b.data := rfl

theorem strMk_data (s : String) : (⟨s.data⟩ : String) = s := rfl

theorem strAppend_assoc (a b c : String) : (a ++ b) ++ c = a ++ (b ++ c) := by
  show String.mk ((a.data ++ b.data) ++ c.data) = String.mk (a.data ++ (b.data ++ c.data))
  rw [List.append_assoc]

theorem dropWhile_head_neg {α : Type} {p : α → Bool} {a : α} {t : List α}
    (ha : p a = false) : (a :: t).dropWhile p = a :: t :=
  List.dropWhile_cons_of_neg (by simp [ha])

theorem dropWhile_all_neg {α : Type} {p : α → Bool} {l : List α}
    (h : ∀ a ∈ l, p a = false) : l.dropWhile p = l := by
  cases l with
  | nil => rfl
  | cons a t => exact dropWhile_head_neg (h a (List.mem_cons_self a t))

theorem dropTrailing_all_neg {p : Char → Bool} {l : List Char}
    (h : ∀ a ∈ l, p a = false) : dropTrailing p l = l := by
  unfold dropTrailing
  rw [dropWhile_all_neg (fun a ha => h a (List.mem_reverse.mp ha)), List.reverse_reverse]

theorem dropTrailing_cons_neg {p : Char → Bool} {a : Char} (l : List Char)
    (ha : p a = false) : dropTrailing p (a :: l) = a :: dropTrailing p l := by
  unfold dropTrailing
  rw [List.reverse_cons, List.dropWhile_append]
  by_cases he : (l.reverse.dropWhile p).isEmpty
  · rw [if_pos he, dropWhile_head_neg ha]
    have h0 : l.reverse.dropWhile p = [] := by simpa using he
    rw [h0]
    rfl
  · rw [if_neg he, List.reverse_append]
    simp

theorem pyStrip_eq_self {s : String} (h : ∀ c ∈ s.data, isPyWs c = false) :
    pyStrip s = s := by
  unfold pyStrip
  rw [dropWhile_all_neg h, dropWhile_all_neg (fun c hc => h c (List.mem_reverse.mp hc)),
    List.reverse_reverse]

theorem pyRstrip_eq_self {s : String} (h : ∀ c ∈ s.data, isPyWs c = false) :
    pyRstrip s = s := by
  unfold pyRstrip
  rw [dropTrailing_all_neg h]

theorem rstripNL_keyContent (w r : String) (hrr : pyRstrip r = r) :
    rstripNL (w ++ (": " ++ r)) = w ++ (": " ++ r) := by
  unfold rstripNL
  rw [show (w ++ (": " ++ r)).data = w.data ++ (':' :: ' ' :: r.data) from rfl]
  rw [dropTrailing_eq_self]
  · rfl
  · intro c hc
    cases hr : r.data with
    | nil =>
      rw [hr] at hc
      rw [List.getLast?_append_of_ne_nil _ (by simp : ([':', ' '] : List Char) ≠ [])] at hc
      rw [show ([':', ' '] : List Char).getLast? = some ' ' from rfl] at hc
      injection hc with hcc
      rw [← hcc]
      decide
    | cons a t =>
      rw [show (':' :: ' ' :: r.data) = [':', ' '] ++ r.data from rfl,
        ← List.append_assoc] at hc
      rw [List.getLast?_append_of_ne_nil _ (by rw [hr]; simp)] at hc
      have hws := pyRstrip_last_not_ws hrr c hc
      by_contra hne
      have hcn : (c == '\n') = true := by revert hne; cases c == '\n' <;> simp
      have hcc : c = '\n' := by simpa using hcn
      subst hcc
      simp [isPyWs] at hws

theorem isPrefixOf_nil_left {α : Type} [BEq α] (l : List α) :
    ([] : List α).isPrefixOf l = true := by
  cases l <;> rfl

theorem isPrefixOf_cons_cons {α : Type} [BEq α] (a b : α) (as bs : List α) :
    (a :: as).isPrefixOf (b :: bs) = (a == b && as.isPrefixOf bs) := rfl

theorem tuiExtract_keyline (w r : String) (hrr : pyRstrip r = r) :
    PyheadTui.tuiExtract ("# " ++ (w ++ (": " ++ r))) = w ++ (": " ++ r) := by
  have hl : pyLstrip ("# " ++ (w ++ (": " ++ r))) = "# " ++ (w ++ (": " ++ r)) := by
    show (⟨('#' :: ' ' :: (w.data ++ (':' :: ' ' :: r.data))).dropWhile isPyWs⟩ : String) = _
    rw [dropWhile_head_neg (by decide)]
    rfl
  have h1 : pyStartsWith ("# " ++ (w ++ (": " ++ r))) "#" = true := by
    show (['#'] : List Char).isPrefixOf
      ('#' :: ' ' :: (w.data ++ (':' :: ' ' :: r.data))) = true
    rw [isPrefixOf_cons_cons, isPrefixOf_nil_left]
    rfl
  have h2 : pyStartsWith (⟨("# " ++ (w ++ (": " ++ r))).data.drop 1⟩ : String) " " = true := by
    show ([' '] : List Char).isPrefixOf
      (' ' :: (w.data ++ (':' :: ' ' :: r.data))) = true
    rw [isPrefixOf_cons_cons, isPrefixOf_nil_left]
    rfl
  simp only [PyheadTui.tuiExtract]
  rw [hl, h1]
  simp only [if_true]
  rw [h2]
  simp only [if_true]
  show rstripNL (w ++ (": " ++ r)) = _
  exact rstripNL_keyContent w r hrr

theorem pyStrip_keyContent_not_colon (w r : String) {w0 : Char} {wt : List Char}
    (hwd : w.data = w0 :: wt) (hw : ∀ c ∈ w.data, isPyWs c = false ∧ c ≠ ':') :
    pyStartsWith (pyStrip (w ++ (": " ++ r))) ":" = false := by
  have hw0 : isPyWs w0 = false := (hw w0 (by rw [hwd]; exact List.mem_cons_self _ _)).1
  have hwc : w0 ≠ ':' := (hw w0 (by rw [hwd]; exact List.mem_cons_self _ _)).2
  unfold pyStrip
  rw [show (w ++ (": " ++ r)).data = w.data ++ (':' :: ' ' :: r.data) from rfl, hwd]
  rw [show (w0 :: wt) ++ (':' :: ' ' :: r.data) = w0 :: (wt ++ (':' :: ' ' :: r.data)) from rfl]
  rw [dropWhile_head_neg hw0]
  rw [show ((w0 :: (wt ++ (':' :: ' ' :: r.data))).reverse.dropWhile isPyWs).reverse
      = dropTrailing isPyWs (w0 :: (wt ++ (':' :: ' ' :: r.data))) from rfl]
  rw [dropTrailing_cons_neg _ hw0]
  have hbeq : (':' == w0) = false := beq_eq_false_iff_ne.mpr (Ne.symm hwc)
  unfold pyStartsWith
  simp [List.isPrefixOf, hbeq]

theorem firstwordColon_keyline (w r : String) (hw0 : w.data ≠ [])
    (hw : ∀ c ∈ w.data, isPyWs c = false ∧ c ≠ ':') (hrl : pyLstrip r = r) :
    PyheadTui.firstwordColonMatch (w ++ (": " ++ r)) = some (w, r) := by
  obtain ⟨w0, wt, hwd⟩ : ∃ w0 wt, w.data = w0 :: wt := by
    cases hd : w.data with
    | nil => exact absurd hd hw0
    | cons a t => exact ⟨a, t, rfl⟩
  simp only [PyheadTui.firstwordColonMatch]
  rw [show (w ++ (": " ++ r)).data = w.data ++ (':' :: ' ' :: r.data) from rfl]
  have hdw : (w.data ++ (':' :: ' ' :: r.data)).dropWhile isPyWs =
      w.data ++ (':' :: ' ' :: r.data) := by
    rw [hwd]
    exact dropWhile_head_neg (hw w0 (by rw [hwd]; exact List.mem_cons_self _ _)).1
  rw [hdw]
  have htk : (w.data ++ (':' :: ' ' :: r.data)).takeWhile
      (fun c => !isPyWs c && c != ':') = w.data := by
    apply takeWhile_append_all
    · intro a ha
      have ha2 := hw a ha
      simp [ha2.1, ha2.2]
    · decide
  rw [htk]
  have hne : w.data.isEmpty = false := by rw [hwd]; rfl
  rw [hne]
  simp only [Bool.false_eq_true, if_false]
  rw [List.drop_left]
  show some (w, pyLstrip r) = some (w, r)
  rw [hrl]

theorem tuiStep_keyline (mode : PyheadTui.TagMode) (st : PyheadTui.TuiState) (w r : String)
    (hw0 : w.data ≠ []) (hw : ∀ c ∈ w.data, isPyWs c = false ∧ c ≠ ':')
    (hrl : pyLstrip r = r) (hrr : pyRstrip r = r) :
    PyheadTui.tuiStep mode st ("# " ++ (w ++ (": " ++ r))) =
      { st with
        tags := (if r = "" then PyheadTui.odSetdefault st.tags (PyheadTui.normalize_tag mode w)
                 else PyheadTui.odAppendVal
                   (PyheadTui.odSetdefault st.tags (PyheadTui.normalize_tag mode w))
                   (PyheadTui.normalize_tag mode w) r),
        cur := some (PyheadTui.normalize_tag mode w) } := by
  obtain ⟨w0, wt, hwd⟩ : ∃ w0 wt, w.data = w0 :: wt := by
    cases hd : w.data with
    | nil => exact absurd hd hw0
    | cons a t => exact ⟨a, t, rfl⟩
  simp only [PyheadTui.tuiStep]
  rw [tuiExtract_keyline w r hrr]
  rw [pyStrip_keyContent_not_colon w r hwd hw]
  simp only [Bool.false_eq_true, if_false]
  rw [firstwordColon_keyline w r hw0 hw hrl]
  have hsw : pyStrip w = w := pyStrip_eq_self (fun c hc => (hw c hc).1)
  simp only [hsw, hrr]
  by_cases hre : r = ""
  · simp [hre]
  · have hrb : (r != "") = true := by simpa using hre
    simp [hre, hrb]

theorem bool_not_true {b : Bool} (h : ¬ b = true) : b = false := by
  cases b
  · rfl
  · exact absurd rfl h

theorem contains_true_iff (l : List String) (a : String) : l.contains a = true ↔ a ∈ l :=
  List.elem_iff

theorem contains_false_iff (l : List String) (a : String) : l.contains a = false ↔ a ∉ l := by
  constructor
  · intro h hm
    rw [(contains_true_iff l a).mpr hm] at h
    cases h
  · intro h
    apply bool_not_true
    intro ht
    exact h ((contains_true_iff l a).mp ht)

theorem guardedNew_spec {α : Type} (key : α → String) (xs : List α) :
    ∀ seen : List String,
    (∀ x ∈ guardedNew key seen xs, seen.contains (key x) = false) ∧
    ((guardedNew key seen xs).map key).Nodup := by
  induction xs with
  | nil =>
    intro seen
    refine ⟨?_, ?_⟩
    · intro x hx
      simp [guardedNew] at hx
    · simp [guardedNew]
  | cons x rest ih =>
    intro seen
    by_cases hc : seen.contains (key x) = true
    · have hg : guardedNew key seen (x :: rest) = guardedNew key seen rest := by
        simp only [guardedNew, hc, if_true]
      rw [hg]
      exact ih seen
    · have hcf : seen.contains (key x) = false := bool_not_true hc
      have hg : guardedNew key seen (x :: rest) =
          x :: guardedNew key (seen ++ [key x]) rest := by
        simp only [guardedNew, hcf, Bool.false_eq_true, if_false]
      rw [hg]
      obtain ⟨ihna, ihnd⟩ := ih (seen ++ [key x])
      refine ⟨?_, ?_⟩
      · intro y hy
        rcases List.mem_cons.mp hy with rfl | hy2
        · exact hcf
        · have h3 := (contains_false_iff _ _).mp (ihna y hy2)
          apply (contains_false_iff _ _).mpr
          intro hmem
          exact h3 (List.mem_append_left _ hmem)
      · rw [List.map_cons, List.nodup_cons]
        refine ⟨?_, ihnd⟩
        intro hmem
        obtain ⟨y, hy, hky⟩ := List.mem_map.mp hmem
        have h3 := (contains_false_iff _ _).mp (ihna y hy)
        apply h3
        rw [hky]
        exact List.mem_append_right _ (List.mem_singleton_self _)

theorem guardedNew_eq_filter {α : Type} (key : α → String) (xs : List α) :
    ∀ seen : List String, (xs.map key).Nodup →
    guardedNew key seen xs = xs.filter (fun x => !seen.contains (key x)) := by
  induction xs with
  | nil => intro seen _; rfl
  | cons x rest ih =>
    intro seen hnd
    rw [List.map_cons, List.nodup_cons] at hnd
    obtain ⟨hnotin, hnd2⟩ := hnd
    rw [List.filter_cons]
    by_cases hc : seen.contains (key x) = true
    · have hg : guardedNew key seen (x :: rest) = guardedNew key seen rest := by
        simp only [guardedNew, hc, if_true]
      rw [hg, ih seen hnd2]
      rw [show (!seen.contains (key x)) = false from by rw [hc]; rfl]
      simp
    · have hcf : seen.contains (key x) = false := bool_not_true hc
      have hg : guardedNew key seen (x :: rest) =
          x :: guardedNew key (seen ++ [key x]) rest := by
        simp only [guardedNew, hcf, Bool.false_eq_true, if_false]
      rw [hg, ih (seen ++ [key x]) hnd2]
      rw [show (!seen.contains (key x)) = true from by rw [hcf]; rfl]
      simp only [if_true]
      congr 1
      apply List.filter_congr
      intro y hy
      have hky : key y ≠ key x := by
        intro he
        exact hnotin (he ▸ List.mem_map_of_mem key hy)
      congr 1
      by_cases hm : key y ∈ seen
      · rw [(contains_true_iff _ _).mpr hm,
          (contains_true_iff _ _).mpr (List.mem_append_left _ hm)]
      · rw [(contains_false_iff _ _).mpr hm]
        rw [(contains_false_iff _ _).mpr ?_]
        intro hmm
        rcases List.mem_append.mp hmm with hmm | hmm
        · exact hm hmm
        · exact hky (List.mem_singleton.mp hmm)

theorem foldl_seenStepKey (vals : List (String × String)) (df : String → String)
    (ks : List String) : ∀ (seen : List String) (out : List (String × String)),
    List.foldl (seenStepKey vals df) (seen, out) ks =
      (seen ++ guardedNew (fun k => k) seen ks,
       out ++ (guardedNew (fun k => k) seen ks).map
         (fun k => (k, (dictGet vals k).getD (df k)))) := by
  induction ks with
  | nil =>
    intro seen out
    simp [guardedNew]
  | cons k rest ih =>
    intro seen out
    rw [List.foldl_cons]
    by_cases hc : seen.contains k = true
    · have hs : seenStepKey vals df (seen, out) k = (seen, out) := by
        unfold seenStepKey
        rw [if_pos hc]
      have hg : guardedNew (fun k => k) seen (k :: rest) =
          guardedNew (fun k => k) seen rest := by
        simp only [guardedNew, hc, if_true]
      rw [hs, hg, ih]
    · have hcf : seen.contains k = false := bool_not_true hc
      have hs : seenStepKey vals df (seen, out) k =
          (seen ++ [k], out ++ [(k, (dictGet vals k).getD (df k))]) := by
        unfold seenStepKey
        rw [if_neg hc]
      have hg : guardedNew (fun k => k) seen (k :: rest) =
          k :: guardedNew (fun k => k) (seen ++ [k]) rest := by
        simp only [guardedNew, hcf, Bool.false_eq_true, if_false]
      rw [hs, hg, ih]
      simp [List.append_assoc]

theorem foldl_seenStepPair (kvs : List (String × String)) :
    ∀ (seen : List String) (out : List (String × String)),
    List.foldl seenStepPair (seen, out) kvs =
      (seen ++ (guardedNew Prod.fst seen kvs).map Prod.fst,
       out ++ guardedNew Prod.fst seen kvs) := by
  induction kvs with
  | nil =>
    intro seen out
    simp [guardedNew]
  | cons kv rest ih =>
    intro seen out
    rw [List.foldl_cons]
    by_cases hc : seen.contains kv.1 = true
    · have hs : seenStepPair (seen, out) kv = (seen, out) := by
        unfold seenStepPair
        rw [if_pos hc]
      have hg : guardedNew Prod.fst seen (kv :: rest) = guardedNew Prod.fst seen rest := by
        simp only [guardedNew, hc, if_true]
      rw [hs, hg, ih]
    · have hcf : seen.contains kv.1 = false := bool_not_true hc
      have hs : seenStepPair (seen, out) kv = (seen ++ [kv.1], out ++ [kv]) := by
        unfold seenStepPair
        rw [if_neg hc]
      have hg : guardedNew Prod.fst seen (kv :: rest) =
          kv :: guardedNew Prod.fst (seen ++ [kv.1]) rest := by
        simp only [guardedNew, hcf, Bool.false_eq_true, if_false]
      rw [hs, hg, ih]
      simp [List.append_assoc]

theorem to_ordered_list_unfold (h : Header) (fd : List (String × JsonDoc))
    (fp : Option String) (mtimeEnv : Option String) (now : String) :
    h.to_ordered_list fd fp mtimeEnv now =
      DEFAULT_ORDER.map (fun k => (k, fixedVal h fd fp mtimeEnv now k))
      ++ ((guardedNew (fun k => k) DEFAULT_ORDER h.key_order).map
          (fun k => (k, (dictGet h.values k).getD (default_for fd fp mtimeEnv now k)))
      ++ guardedNew Prod.fst
          (DEFAULT_ORDER ++ guardedNew (fun k => k) DEFAULT_ORDER h.key_order) h.values) := by
  show (h.values.foldl seenStepPair
      (h.key_order.foldl (seenStepKey h.values (default_for fd fp mtimeEnv now))
        (DEFAULT_ORDER,
         DEFAULT_ORDER.map (fun k => (k, fixedVal h fd fp mtimeEnv now k))))).2 = _
  rw [foldl_seenStepKey, foldl_seenStepPair]
  simp [List.append_assoc]

theorem pyUpper_default_order : ∀ k ∈ DEFAULT_ORDER, pyUpper k = k := by decide

theorem dictGet_ordered_fixed (h : Header) (fd : List (String × JsonDoc))
    (fp : Option String) (mtimeEnv : Option String) (now : String) (k : String)
    (hk : k ∈ DEFAULT_ORDER) :
    dictGet (h.to_ordered_list fd fp mtimeEnv now) k =
      some (fixedVal h fd fp mtimeEnv now k) := by
  rw [to_ordered_list_unfold, dictGet_append,
    dictGet_map_self DEFAULT_ORDER _ k hk]

theorem fixedVal_of_some (h : Header) (fd : List (String × JsonDoc))
    (fp : Option String) (mtimeEnv : Option String) (now : String) (k v : String)
    (hv : dictGet h.values k = some v) (hkf : k ≠ "FILE") :
    fixedVal h fd fp mtimeEnv now k = v := by
  unfold fixedVal
  rw [hv, beq_eq_false_iff_ne.mpr hkf]
  simp

theorem fixedVal_of_none (h : Header) (fd : List (String × JsonDoc))
    (fp : Option String) (mtimeEnv : Option String) (now : String) (k : String)
    (hv : dictGet h.values k = none) :
    fixedVal h fd fp mtimeEnv now k = default_for fd fp mtimeEnv now k := by
  unfold fixedVal
  rw [hv]

theorem fixedVal_file_some_path (h : Header) (fd : List (String × JsonDoc))
    (p : String) (mtimeEnv : Option String) (now : String) :
    fixedVal h fd (some p) mtimeEnv now "FILE" = basename p := by
  unfold fixedVal
  cases hv : dictGet h.values "FILE"
  · simp [default_for, show pyUpper "FILE" = "FILE" from by decide]
  · simp

theorem default_for_fd_some (fd : List (String × JsonDoc)) (fp : Option String)
    (mtimeEnv : Option String) (now : String) (k : String) (dv : JsonDoc)
    (hku : pyUpper k = k) (hkf : (k == "FILE") = false)
    (hdv : dictGet fd k = some dv) (hne : notNoneOrEmpty dv = true) :
    default_for fd fp mtimeEnv now k = pyStr dv := by
  simp only [default_for]
  rw [hku, hkf]
  simp only [Bool.false_eq_true, if_false]
  rw [hdv]
  have hred : ∀ fb : String,
      (match some dv with
       | some v => if notNoneOrEmpty v = true then pyStr v else fb
       | none => fb) = pyStr dv := by
    intro fb
    show (if notNoneOrEmpty dv = true then pyStr dv else fb) = pyStr dv
    rw [if_pos hne]
  exact hred _

theorem default_for_fallback (fd : List (String × JsonDoc)) (fp : Option String)
    (mtimeEnv : Option String) (now : String) (k : String)
    (hku : pyUpper k = k) (hkf : (k == "FILE") = false)
    (hmt : fdMissingOrEmpty fd k = true) :
    default_for fd fp mtimeEnv now k =
      (if k == "VERSION" then "0.0.0"
       else if k == "DATE" then
         (match fp with
          | some _ => file_mtime_string mtimeEnv now
          | none => now)
       else "tbd.") := by
  simp only [default_for]
  rw [hku, hkf]
  simp only [Bool.false_eq_true, if_false]
  unfold fdMissingOrEmpty at hmt
  cases hd : dictGet fd k with
  | none => rfl
  | some dv =>
    rw [hd] at hmt
    have hmt2 : (!notNoneOrEmpty dv) = true := hmt
    have hnn : notNoneOrEmpty dv = false := by
      cases hn : notNoneOrEmpty dv
      · rfl
      · rw [hn] at hmt2
        simp at hmt2
    have hred : ∀ fb : String,
        (match some dv with
         | some v => if notNoneOrEmpty v = true then pyStr v else fb
         | none => fb) = fb := by
      intro fb
      show (if notNoneOrEmpty dv = true then pyStr dv else fb) = fb
      rw [hnn]
      simp
    exact hred _

/-- C2: for a fixed required key, the resolver uses the stored value
verbatim except FILE (always the base name of the current file); a missing
key takes the non-empty folder default (stringified), and otherwise the
key-specific fallback: `0.0.0` for VERSION, the mtime timestamp (current
time when the mtime is unavailable) for DATE, `tbd.` for every other key. -/
theorem C2_default_resolution (h : Header) (fd : List (String × JsonDoc)) (p : String)
    (mtimeEnv : Option String) (now : String) (k : String) (hk : k ∈ DEFAULT_ORDER) :
    (∀ v, k ≠ "FILE" → dictGet h.values k = some v →
      dictGet (h.to_ordered_list fd (some p) mtimeEnv now) k = some v) ∧
    dictGet (h.to_ordered_list fd (some p) mtimeEnv now) "FILE" = some (basename p) ∧
    (dictGet h.values k = none →
      ∀ dv, k ≠ "FILE" → dictGet fd k = some dv → notNoneOrEmpty dv = true →
      dictGet (h.to_ordered_list fd (some p) mtimeEnv now) k = some (pyStr dv)) ∧
    (dictGet h.values "VERSION" = none → fdMissingOrEmpty fd "VERSION" = true →
      dictGet (h.to_ordered_list fd (some p) mtimeEnv now) "VERSION" = some "0.0.0") ∧
    (dictGet h.values "DATE" = none → fdMissingOrEmpty fd "DATE" = true →
      dictGet (h.to_ordered_list fd (some p) mtimeEnv now) "DATE" =
        some (file_mtime_string mtimeEnv now)) ∧
    (dictGet h.values k = none → fdMissingOrEmpty fd k = true →
      k ≠ "FILE" → k ≠ "VERSION" → k ≠ "DATE" →
      dictGet (h.to_ordered_list fd (some p) mtimeEnv now) k = some "tbd.") := by
  have hku : pyUpper k = k := pyUpper_default_order k hk
  refine ⟨?_, ?_, ?_, ?_, ?_, ?_⟩
  · intro v hkf hv
    rw [dictGet_ordered_fixed h fd (some p) mtimeEnv now k hk,
      fixedVal_of_some h fd (some p) mtimeEnv now k v hv hkf]
  · rw [dictGet_ordered_fixed h fd (some p) mtimeEnv now "FILE" (by decide),
      fixedVal_file_some_path]
  · intro hv dv hkf hdv hne
    rw [dictGet_ordered_fixed h fd (some p) mtimeEnv now k hk,
      fixedVal_of_none h fd (some p) mtimeEnv now k hv,
      default_for_fd_some fd (some p) mtimeEnv now k dv hku
        (beq_eq_false_iff_ne.mpr hkf) hdv hne]
  · intro hv hmt
    rw [dictGet_ordered_fixed h fd (some p) mtimeEnv now "VERSION" (by decide),
      fixedVal_of_none h fd (some p) mtimeEnv now "VERSION" hv,
      default_for_fallback fd (some p) mtimeEnv now "VERSION" (by decide) (by decide) hmt]
    rfl
  · intro hv hmt
    rw [dictGet_ordered_fixed h fd (some p) mtimeEnv now "DATE" (by decide),
      fixedVal_of_none h fd (some p) mtimeEnv now "DATE" hv,
      default_for_fallback fd (some p) mtimeEnv now "DATE" (by decide) (by decide) hmt]
    rfl
  · intro hv hmt hkf hkv hkd
    rw [dictGet_ordered_fixed h fd (some p) mtimeEnv now k hk,
      fixedVal_of_none h fd (some p) mtimeEnv now k hv,
      default_for_fallback fd (some p) mtimeEnv now k hku
        (beq_eq_false_iff_ne.mpr hkf) hmt]
    rw [beq_eq_false_iff_ne.mpr hkv, beq_eq_false_iff_ne.mpr hkd]
    simp

theorem C2_default_resolution_witness :
    (("STATUS" : String) ∈ DEFAULT_ORDER) ∧
    ((∀ v, ("STATUS" : String) ≠ "FILE" →
        dictGet [("STATUS", "Testing")] "STATUS" = some v →
        dictGet (Header.to_ordered_list
          { key_order := ["STATUS"], values := [("STATUS", "Testing")],
            raw_comment_lines := [] }
          [("AUTHOR", JsonDoc.jstr "Tester")] (some "d/x.py") (some "MT") "NOW")
          "STATUS" = some v) ∧
     dictGet (Header.to_ordered_list
        { key_order := ["STATUS"], values := [("STATUS", "Testing")],
          raw_comment_lines := [] }
        [("AUTHOR", JsonDoc.jstr "Tester")] (some "d/x.py") (some "MT") "NOW")
        "FILE" = some (basename "d/x.py") ∧
     (dictGet ([("STATUS", "Testing")] : List (String × String)) "STATUS" = none →
       ∀ dv, ("STATUS" : String) ≠ "FILE" →
       dictGet [("AUTHOR", JsonDoc.jstr "Tester")] "STATUS" = some dv →
       notNoneOrEmpty dv = true →
       dictGet (Header.to_ordered_list
          { key_order := ["STATUS"], values := [("STATUS", "Testing")],
            raw_comment_lines := [] }
          [("AUTHOR", JsonDoc.jstr "Tester")] (some "d/x.py") (some "MT") "NOW")
          "STATUS" = some (pyStr dv)) ∧
     (dictGet ([("STATUS", "Testing")] : List (String × String)) "VERSION" = none →
       fdMissingOrEmpty [("AUTHOR", JsonDoc.jstr "Tester")] "VERSION" = true →
       dictGet (Header.to_ordered_list
          { key_order := ["STATUS"], values := [("STATUS", "Testing")],
            raw_comment_lines := [] }
          [("AUTHOR", JsonDoc.jstr "Tester")] (some "d/x.py") (some "MT") "NOW")
          "VERSION" = some "0.0.0") ∧
     (dictGet ([("STATUS", "Testing")] : List (String × String)) "DATE" = none →
       fdMissingOrEmpty [("AUTHOR", JsonDoc.jstr "Tester")] "DATE" = true →
       dictGet (Header.to_ordered_list
          { key_order := ["STATUS"], values := [("STATUS", "Testing")],
            raw_comment_lines := [] }
          [("AUTHOR", JsonDoc.jstr "Tester")] (some "d/x.py") (some "MT") "NOW")
          "DATE" = some (file_mtime_string (some "MT") "NOW")) ∧
     (dictGet ([("STATUS", "Testing")] : List (String × String)) "STATUS" = none →
       fdMissingOrEmpty [("AUTHOR", JsonDoc.jstr "Tester")] "STATUS" = true →
       ("STATUS" : String) ≠ "FILE" → ("STATUS" : String) ≠ "VERSION" →
       ("STATUS" : String) ≠ "DATE" →
       dictGet (Header.to_ordered_list
          { key_order := ["STATUS"], values := [("STATUS", "Testing")],
            raw_comment_lines := [] }
          [("AUTHOR", JsonDoc.jstr "Tester")] (some "d/x.py") (some "MT") "NOW")
          "STATUS" = some "tbd.")) :=
  ⟨by decide,
    C2_default_resolution
      { key_order := ["STATUS"], values := [("STATUS", "Testing")],
        raw_comment_lines := [] }
      [("AUTHOR", JsonDoc.jstr "Tester")] "d/x.py" (some "MT") "NOW" "STATUS" (by decide)⟩

theorem map_fst_keyed (l : List String) (f : String → String) :
    (l.map (fun k => (k, f k))).map Prod.fst = l := by
  rw [List.map_map]
  have hcomp : (Prod.fst ∘ fun k : String => (k, f k)) = id := rfl
  rw [hcomp, List.map_id]

theorem map_fst_filter (l : List (String × String)) (p : String → Bool) :
    (l.filter (fun kv => p kv.1)).map Prod.fst = (l.map Prod.fst).filter p := by
  induction l with
  | nil => rfl
  | cons kv rest ih =>
    rw [List.filter_cons, List.map_cons, List.filter_cons]
    by_cases hp : p kv.1 = true
    · rw [if_pos hp, if_pos hp, List.map_cons, ih]
    · rw [if_neg hp, if_neg hp, ih]

theorem contains_DO_g2 (ko : List String) (k : String) :
    (!(DEFAULT_ORDER ++ ko.filter (fun x => !DEFAULT_ORDER.contains x)).contains k)
      = (!DEFAULT_ORDER.contains k && !ko.contains k) := by
  by_cases h1 : k ∈ DEFAULT_ORDER
  · rw [(contains_true_iff _ _).mpr h1,
      (contains_true_iff _ _).mpr (List.mem_append_left _ h1)]
    rfl
  · have hD : DEFAULT_ORDER.contains k = false := (contains_false_iff _ _).mpr h1
    rw [hD]
    by_cases h2 : k ∈ ko
    · have hK : ko.contains k = true := (contains_true_iff _ _).mpr h2
      rw [hK]
      have hm : k ∈ DEFAULT_ORDER ++ ko.filter (fun x => !DEFAULT_ORDER.contains x) := by
        apply List.mem_append_right
        rw [List.mem_filter]
        exact ⟨h2, by rw [hD]; rfl⟩
      rw [(contains_true_iff _ _).mpr hm]
      rfl
    · have hK : ko.contains k = false := (contains_false_iff _ _).mpr h2
      rw [hK]
      have hm : k ∉ DEFAULT_ORDER ++ ko.filter (fun x => !DEFAULT_ORDER.contains x) := by
        intro hmm
        rcases List.mem_append.mp hmm with hmm | hmm
        · exact h1 hmm
        · exact h2 (List.mem_filter.mp hmm).1
      rw [(contains_false_iff _ _).mpr hm]
      rfl

/-- C3: the Ordered Output List lists the fixed required keys first in
canonical order, then the file's other keys in discovery order, then keys
present only in the live value map, and no key appears twice. -/
theorem C3_key_ordering (h : Header) (fd : List (String × JsonDoc))
    (fp : Option String) (mtimeEnv : Option String) (now : String)
    (hko : h.key_order.Nodup) (hvn : (h.values.map Prod.fst).Nodup) :
    ((h.to_ordered_list fd fp mtimeEnv now).map Prod.fst).Nodup ∧
    (h.to_ordered_list fd fp mtimeEnv now).map Prod.fst =
      DEFAULT_ORDER
        ++ (h.key_order.filter (fun k => !DEFAULT_ORDER.contains k)
        ++ (h.values.map Prod.fst).filter
            (fun k => !DEFAULT_ORDER.contains k && !h.key_order.contains k)) := by
  have hg2 : guardedNew (fun k => k) DEFAULT_ORDER h.key_order =
      h.key_order.filter (fun k => !DEFAULT_ORDER.contains k) :=
    guardedNew_eq_filter (fun k => k) h.key_order DEFAULT_ORDER (by simpa using hko)
  have hg3 : guardedNew Prod.fst
      (DEFAULT_ORDER ++ guardedNew (fun k => k) DEFAULT_ORDER h.key_order) h.values =
      h.values.filter (fun kv =>
        !(DEFAULT_ORDER ++ h.key_order.filter
            (fun x => !DEFAULT_ORDER.contains x)).contains kv.1) := by
    rw [hg2]
    exact guardedNew_eq_filter Prod.fst h.values _ hvn
  have hmap : (h.to_ordered_list fd fp mtimeEnv now).map Prod.fst =
      DEFAULT_ORDER ++ (guardedNew (fun k => k) DEFAULT_ORDER h.key_order
        ++ (guardedNew Prod.fst
            (DEFAULT_ORDER ++ guardedNew (fun k => k) DEFAULT_ORDER h.key_order)
            h.values).map Prod.fst) := by
    rw [to_ordered_list_unfold]
    simp only [List.map_append]
    rw [map_fst_keyed, map_fst_keyed]
  constructor
  · rw [hmap]
    have s2 := guardedNew_spec (fun k => k) h.key_order DEFAULT_ORDER
    have s3 := guardedNew_spec Prod.fst h.values
      (DEFAULT_ORDER ++ guardedNew (fun k => k) DEFAULT_ORDER h.key_order)
    rw [List.nodup_append]
    refine ⟨by decide, ?_, ?_⟩
    · rw [List.nodup_append]
      refine ⟨by simpa using s2.2, s3.2, ?_⟩
      intro a ha hb
      obtain ⟨kv, hkv, hfk⟩ := List.mem_map.mp hb
      have h3 := (contains_false_iff _ _).mp (s3.1 kv hkv)
      apply h3
      rw [hfk]
      exact List.mem_append_right _ ha
    · intro a ha hb
      rcases List.mem_append.mp hb with hb | hb
      · have h2 := (contains_false_iff _ _).mp (s2.1 a hb)
        exact h2 ha
      · obtain ⟨kv, hkv, hfk⟩ := List.mem_map.mp hb
        have h3 := (contains_false_iff _ _).mp (s3.1 kv hkv)
        apply h3
        rw [hfk]
        exact List.mem_append_left _ ha
  · rw [hmap, hg3, hg2,
      map_fst_filter h.values
        (fun x => !(DEFAULT_ORDER
          ++ h.key_order.filter (fun y => !DEFAULT_ORDER.contains y)).contains x)]
    congr 1
    congr 1
    apply List.filter_congr
    intro k _
    exact contains_DO_g2 h.key_order k

theorem C3_key_ordering_witness :
    (["B", "A"] : List String).Nodup ∧
    ([("B", "2"), ("A", "1")].map (Prod.fst (β := String))).Nodup ∧
    (((Header.to_ordered_list
        { key_order := ["B", "A"], values := [("B", "2"), ("A", "1")],
          raw_comment_lines := [] } [] none (some "MT") "NOW").map Prod.fst).Nodup ∧
     (Header.to_ordered_list
        { key_order := ["B", "A"], values := [("B", "2"), ("A", "1")],
          raw_comment_lines := [] } [] none (some "MT") "NOW").map Prod.fst =
      DEFAULT_ORDER
        ++ ((["B", "A"] : List String).filter (fun k => !DEFAULT_ORDER.contains k)
        ++ ([("B", "2"), ("A", "1")].map Prod.fst).filter
            (fun k => !DEFAULT_ORDER.contains k
              && !(["B", "A"] : List String).contains k))) :=
  ⟨by decide, by decide,
    C3_key_ordering
      { key_order := ["B", "A"], values := [("B", "2"), ("A", "1")],
        raw_comment_lines := [] } [] none (some "MT") "NOW" (by decide) (by decide)⟩

/-- C9: the serializer word-wraps the MISSION value to the configured wrap
width — 72 columns when no override is given and the folder WRAP_WIDTH when
present — emitting the first wrapped line as `# MISSION: first` and each
further wrapped line as a plain continuation comment line; the folder
defaults of the spec scenario give an effective width of 30 and, applied to
a header-less file, AUTHOR = `Tester`. -/
theorem C9_mission_wrap (path : String) (shebang : Option String) (h : Header)
    (fd : List (String × JsonDoc)) (mtimeEnv : Option String) (now : String)
    (origLines : List String) (vM : String) (restE : List (String × String))
    (w0 : String) (ws : List String)
    (hord : (h.set "FILE" (basename path)).to_ordered_list fd (some path) mtimeEnv now
       = ("MISSION", vM) :: restE)
    (hwrap : wrapText (get_wrap_width_from_defaults fd).toNat vM = w0 :: ws) :
    write_header_to_file path shebang h fd mtimeEnv now origLines =
      ((match shebang with
        | some s => [rstripNL s]
        | none => ([] : List String)) ++
        ("# MISSION: " ++ w0) :: (ws.map (fun l => "# " ++ l)
          ++ (renderAll (get_wrap_width_from_defaults fd).toNat restE
          ++ ("#" :: (parse_header_from_lines (origLines.map rstripNL)).2.2)))).map rstripNL ∧
    get_wrap_width_from_defaults [] = 72 ∧
    get_wrap_width_from_defaults
      [("AUTHOR", JsonDoc.jstr "Tester"), ("WRAP_WIDTH", JsonDoc.jnum 30)] = 30 ∧
    (add_default_header_to_file "t/b.py"
      [("AUTHOR", JsonDoc.jstr "Tester"), ("WRAP_WIDTH", JsonDoc.jnum 30)]
      (some "MT") "NOW" ["print('x')"] false).2 =
      some ["# MISSION: tbd.", "# STATUS: tbd.", "# VERSION: 0.0.0", "# NOTES: tbd.",
            "# DATE: MT", "# FILE: b.py", "# AUTHOR: Tester", "#", "print('x')"] := by
  refine ⟨?_, rfl, rfl, by decide⟩
  have hre : renderEntry (get_wrap_width_from_defaults fd).toNat "MISSION" vM
      = ("# MISSION: " ++ w0) :: ws.map (fun l => "# " ++ l) := by
    simp only [renderEntry]
    rw [show (("MISSION" : String) == "PREAMBLE") = false from by decide]
    rw [show (("MISSION" : String) == "MISSION") = true from by decide]
    simp only [Bool.false_eq_true, if_false, if_true]
    rw [hwrap]
    rw [show (w0 :: ws).isEmpty = false from rfl]
    simp
  simp only [write_header_to_file]
  rw [hord]
  rw [show renderAll (get_wrap_width_from_defaults fd).toNat (("MISSION", vM) :: restE)
      = renderEntry (get_wrap_width_from_defaults fd).toNat "MISSION" vM
        ++ renderAll (get_wrap_width_from_defaults fd).toNat restE from rfl]
  rw [hre]
  simp [List.append_assoc]

theorem C9_mission_wrap_witness :
    ((Header.set ({} : Header) "FILE" (basename "t/b.py")).to_ordered_list
        [("AUTHOR", JsonDoc.jstr "Tester"), ("WRAP_WIDTH", JsonDoc.jnum 30)]
        (some "t/b.py") (some "MT") "NOW"
      = ("MISSION", "tbd.") ::
          [("STATUS", "tbd."), ("VERSION", "0.0.0"), ("NOTES", "tbd."), ("DATE", "MT"),
           ("FILE", "b.py"), ("AUTHOR", "Tester")] ∧
     wrapText (get_wrap_width_from_defaults
        [("AUTHOR", JsonDoc.jstr "Tester"), ("WRAP_WIDTH", JsonDoc.jnum 30)]).toNat
        "tbd." = "tbd." :: []) ∧
    (write_header_to_file "t/b.py" none {}
        [("AUTHOR", JsonDoc.jstr "Tester"), ("WRAP_WIDTH", JsonDoc.jnum 30)]
        (some "MT") "NOW" ["print('x')"] =
      ((match (none : Option String) with
        | some s => [rstripNL s]
        | none => ([] : List String)) ++
        ("# MISSION: " ++ "tbd.") :: (([] : List String).map (fun l => "# " ++ l)
          ++ (renderAll (get_wrap_width_from_defaults
                [("AUTHOR", JsonDoc.jstr "Tester"), ("WRAP_WIDTH", JsonDoc.jnum 30)]).toNat
                [("STATUS", "tbd."), ("VERSION", "0.0.0"), ("NOTES", "tbd."), ("DATE", "MT"),
                 ("FILE", "b.py"), ("AUTHOR", "Tester")]
          ++ ("#" :: (parse_header_from_lines
                (["print('x')"].map rstripNL)).2.2)))).map rstripNL ∧
     get_wrap_width_from_defaults [] = 72 ∧
     get_wrap_width_from_defaults
       [("AUTHOR", JsonDoc.jstr "Tester"), ("WRAP_WIDTH", JsonDoc.jnum 30)] = 30 ∧
     (add_default_header_to_file "t/b.py"
       [("AUTHOR", JsonDoc.jstr "Tester"), ("WRAP_WIDTH", JsonDoc.jnum 30)]
       (some "MT") "NOW" ["print('x')"] false).2 =
       some ["# MISSION: tbd.", "# STATUS: tbd.", "# VERSION: 0.0.0", "# NOTES: tbd.",
             "# DATE: MT", "# FILE: b.py", "# AUTHOR: Tester", "#", "print('x')"]) :=
  ⟨⟨by decide, by decide⟩,
    C9_mission_wrap "t/b.py" none {}
      [("AUTHOR", JsonDoc.jstr "Tester"), ("WRAP_WIDTH", JsonDoc.jnum 30)]
      (some "MT") "NOW" ["print('x')"] "tbd."
      [("STATUS", "tbd."), ("VERSION", "0.0.0"), ("NOTES", "tbd."), ("DATE", "MT"),
       ("FILE", "b.py"), ("AUTHOR", "Tester")]
      "tbd." [] (by decide) (by decide)⟩

theorem keyContent_last_not_nl (w r : String) (hrr : pyRstrip r = r) :
    ∀ c, (w.data ++ (':' :: ' ' :: r.data)).getLast? = some c → (c == '\n') = false := by
  intro c hc
  cases hr : r.data with
  | nil =>
    rw [hr] at hc
    rw [List.getLast?_append_of_ne_nil _ (by simp : ([':', ' '] : List Char) ≠ [])] at hc
    rw [show ([':', ' '] : List Char).getLast? = some ' ' from rfl] at hc
    injection hc with hcc
    rw [← hcc]
    decide
  | cons a t =>
    rw [show (':' :: ' ' :: r.data) = [':', ' '] ++ r.data from rfl,
      ← List.append_assoc] at hc
    rw [List.getLast?_append_of_ne_nil _ (by rw [hr]; simp)] at hc
    have hws := pyRstrip_last_not_ws hrr c hc
    by_contra hne
    have hcn : (c == '\n') = true := by revert hne; cases c == '\n' <;> simp
    have hcc : c = '\n' := by simpa using hcn
    subst hcc
    simp [isPyWs] at hws

theorem rstripNL_keyRaw (w r : String) (hrr : pyRstrip r = r) :
    rstripNL ("# " ++ (w ++ (": " ++ r))) = "# " ++ (w ++ (": " ++ r)) := by
  unfold rstripNL
  rw [show ("# " ++ (w ++ (": " ++ r))).data
      = ['#', ' '] ++ (w.data ++ (':' :: ' ' :: r.data)) from rfl]
  rw [dropTrailing_eq_self (fun c hc => ?_)]
  · rfl
  · rw [List.getLast?_append_of_ne_nil _ (by simp)] at hc
    exact keyContent_last_not_nl w r hrr c hc

theorem isCommentLine_hash {s : String} {t : List Char} (hd : s.data = '#' :: t) :
    isCommentLine s = true := by
  unfold isCommentLine pyLstrip
  rw [hd, dropWhile_head_neg (by decide)]
  show (['#'] : List Char).isPrefixOf ('#' :: t) = true
  rw [isPrefixOf_cons_cons, isPrefixOf_nil_left]
  rfl

theorem notShebang_hash_space {s : String} {t : List Char} (hd : s.data = '#' :: ' ' :: t) :
    pyStartsWith s "#!" = false := by
  unfold pyStartsWith
  rw [hd]
  show (['#', '!'] : List Char).isPrefixOf ('#' :: ' ' :: t) = false
  rw [isPrefixOf_cons_cons, isPrefixOf_cons_cons]
  rfl

theorem odSetdefault_of_get_some (d : List (String × List String)) (k : String)
    (ls : List String) (h : dictGet d k = some ls) :
    PyheadTui.odSetdefault d k = d := by
  unfold PyheadTui.odSetdefault
  rw [h]
  rfl

theorem odAppendVal_map_fst (d : List (String × List String)) (k : String) (v : String) :
    (PyheadTui.odAppendVal d k v).map Prod.fst = d.map Prod.fst := by
  induction d with
  | nil => rfl
  | cons kv rest ih =>
    unfold PyheadTui.odAppendVal
    by_cases hk : kv.1 == k <;> simp [hk, ih]

theorem dictGet_odAppendVal_self (d : List (String × List String)) (k : String)
    (v : String) (ls : List String) (h : dictGet d k = some ls) :
    dictGet (PyheadTui.odAppendVal d k v) k = some (ls ++ [v]) := by
  induction d with
  | nil => simp [dictGet] at h
  | cons kv rest ih =>
    unfold PyheadTui.odAppendVal
    by_cases hk : kv.1 == k
    · simp only [hk, if_true]
      simp [dictGet, hk] at h
      simp [dictGet, hk, h]
    · simp [dictGet, hk] at h
      simp [dictGet, hk, ih h]

theorem key_order_set_contains (h : Header) (k v : String) :
    (h.set k v).key_order.contains (pyUpper k) = true := by
  show (if h.key_order.contains (pyUpper k) = true then h.key_order
        else h.key_order ++ [pyUpper k]).contains (pyUpper k) = true
  by_cases hc : h.key_order.contains (pyUpper k) = true
  · rw [if_pos hc]; exact hc
  · rw [if_neg hc]; simp

theorem dictSet_map_fst_of_get_some {β : Type} (d : List (String × β)) (k : String)
    (v : β) (h : (dictGet d k).isSome = true) :
    (dictSet d k v).map Prod.fst = d.map Prod.fst := by
  induction d with
  | nil => simp [dictGet] at h
  | cons kv rest ih =>
    unfold dictSet
    by_cases hk : kv.1 == k
    · have hke : kv.1 = k := by simpa using hk
      simp [hk, hke]
    · simp only [dictGet, hk] at h
      simp [hk, ih (by simpa using h)]

/-- C6: a header comment line of the form `FIRSTWORD: rest` where `FIRSTWORD`
contains no internal whitespace or colon parses to the tag `FIRSTWORD`
(normalized) with the entire remainder after the first colon as its first
value line: a colon appearing later inside `rest` is part of the value, so
only the first colon after the first token delimits key from value. -/
theorem C6_first_colon_delimiter (w r : String)
    (hw0 : w.data ≠ [])
    (hw : ∀ c ∈ w.data, isPyWs c = false ∧ c ≠ ':')
    (hrl : pyLstrip r = r) (hrr : pyRstrip r = r) :
    PyheadTui.parse_header .snake ["# " ++ (w ++ (": " ++ r))] =
      (none, 1, [],
        [(PyheadTui.normalize_tag .snake w, if r = "" then [] else [r])]) := by
  have hA : ("# " ++ (w ++ (": " ++ r))).data
      = '#' :: ' ' :: (w.data ++ (':' :: ' ' :: r.data)) := rfl
  simp only [PyheadTui.parse_header]
  rw [notShebang_hash_space hA]
  simp only [Bool.false_eq_true, if_false, List.drop_zero]
  rw [List.takeWhile_cons_of_pos (by rw [isCommentLine_hash hA])]
  rw [show List.takeWhile isCommentLine ([] : List String) = [] from rfl]
  simp only [List.map_cons, List.map_nil, List.foldl_cons, List.foldl_nil, List.length_cons,
    List.length_nil]
  rw [rstripNL_keyRaw w r hrr]
  rw [tuiStep_keyline .snake {} w r hw0 hw hrl hrr]
  by_cases hre : r = ""
  · simp [hre, PyheadTui.odSetdefault, dictGet]
  · simp only [hre, if_false]
    simp [PyheadTui.odSetdefault, PyheadTui.odAppendVal, dictGet, hre]

theorem C6_first_colon_delimiter_witness :
    (("Title" : String).data ≠ [] ∧
     (∀ c ∈ ("Title" : String).data, isPyWs c = false ∧ c ≠ ':') ∧
     pyLstrip "A long: value with colon" = "A long: value with colon" ∧
     pyRstrip "A long: value with colon" = "A long: value with colon") ∧
    PyheadTui.parse_header .snake ["# " ++ ("Title" ++ (": " ++ "A long: value with colon"))] =
      (none, 1, [],
        [(PyheadTui.normalize_tag .snake "Title",
          if ("A long: value with colon" : String) = "" then []
          else ["A long: value with colon"])]) :=
  ⟨⟨by decide, by decide, by decide, by decide⟩,
    C6_first_colon_delimiter "Title" "A long: value with colon"
      (by decide) (by decide) (by decide) (by decide)⟩

/-- C8 (amended): keys are case-normalized in both parsers, and on a second
definition of an already-seen key the key keeps its first-seen position and
is not duplicated in both; the core parser (`Header.set`) overwrites the
stored value in place, whereas the TUI parser appends the later definition's
value line to the already-stored list instead of overwriting it. -/
theorem C8_duplicate_keys_amended (h : Header) (k v₁ v₂ : String)
    (mode : PyheadTui.TagMode) (st : PyheadTui.TuiState) (w r : String) (ls : List String)
    (hw0 : w.data ≠ []) (hw : ∀ c ∈ w.data, isPyWs c = false ∧ c ≠ ':')
    (hrl : pyLstrip r = r) (hrr : pyRstrip r = r) (hr0 : r ≠ "")
    (hk : dictGet st.tags (PyheadTui.normalize_tag mode w) = some ls) :
    (((h.set k v₁).set k v₂).key_order = (h.set k v₁).key_order ∧
     ((h.set k v₁).set k v₂).values.map Prod.fst = (h.set k v₁).values.map Prod.fst ∧
     ((h.set k v₁).set k v₂).get k = some v₂) ∧
    ((PyheadTui.tuiStep mode st ("# " ++ (w ++ (": " ++ r)))).tags.map Prod.fst =
       st.tags.map Prod.fst ∧
     dictGet (PyheadTui.tuiStep mode st ("# " ++ (w ++ (": " ++ r)))).tags
       (PyheadTui.normalize_tag mode w) = some (ls ++ [r])) := by
  constructor
  · refine ⟨?_, ?_, ?_⟩
    · show (if (h.set k v₁).key_order.contains (pyUpper k) = true
          then (h.set k v₁).key_order else (h.set k v₁).key_order ++ [pyUpper k]) = _
      rw [key_order_set_contains]
      rfl
    · show (dictSet (h.set k v₁).values (pyUpper k) v₂).map Prod.fst = _
      apply dictSet_map_fst_of_get_some
      show (dictGet (dictSet h.values (pyUpper k) v₁) (pyUpper k)).isSome = true
      rw [dictGet_dictSet_self]
      rfl
    · show dictGet (dictSet (h.set k v₁).values (pyUpper k) v₂) (pyUpper k) = some v₂
      rw [dictGet_dictSet_self]
  · rw [tuiStep_keyline mode st w r hw0 hw hrl hrr]
    simp only [hr0, if_false]
    rw [odSetdefault_of_get_some st.tags _ ls hk]
    exact ⟨odAppendVal_map_fst st.tags _ r,
      dictGet_odAppendVal_self st.tags _ r ls hk⟩

theorem C8_duplicate_keys_amended_witness :
    ((("A" : String).data ≠ [] ∧
      (∀ c ∈ ("A" : String).data, isPyWs c = false ∧ c ≠ ':') ∧
      pyLstrip "z" = "z" ∧ pyRstrip "z" = "z" ∧ ("z" : String) ≠ "" ∧
      dictGet [("a", ["x"])] (PyheadTui.normalize_tag .snake "A") = some ["x"])) ∧
    ((((({} : Header).set "A" "x").set "A" "z").key_order =
        (({} : Header).set "A" "x").key_order ∧
      ((({} : Header).set "A" "x").set "A" "z").values.map Prod.fst =
        (({} : Header).set "A" "x").values.map Prod.fst ∧
      ((({} : Header).set "A" "x").set "A" "z").get "A" = some "z") ∧
     ((PyheadTui.tuiStep .snake
         { preamble := [], tags := [("a", ["x"])], cur := some "a" }
         ("# " ++ ("A" ++ (": " ++ "z")))).tags.map Prod.fst =
        ([("a", ["x"])] : List (String × List String)).map Prod.fst ∧
      dictGet (PyheadTui.tuiStep .snake
         { preamble := [], tags := [("a", ["x"])], cur := some "a" }
         ("# " ++ ("A" ++ (": " ++ "z")))).tags
        (PyheadTui.normalize_tag .snake "A") = some (["x"] ++ ["z"]))) :=
  ⟨⟨by decide, by decide, by decide, by decide, by decide, by decide⟩,
    C8_duplicate_keys_amended {} "A" "x" "z" .snake
      { preamble := [], tags := [("a", ["x"])], cur := some "a" } "A" "z" ["x"]
      (by decide) (by decide) (by decide) (by decide) (by decide) (by decide)⟩

/-- C8 counterexample: on the duplicated key `A`, the TUI parser yields the
appended value list `["x", "z"]` for tag `a` rather than overwriting the slot
with `["z"]` as the claim states (the core parser does overwrite, yielding
`z`). -/
theorem C8_counterexample :
    (PyheadTui.parse_header .snake ["# A: x", "# B: y", "# A: z"]).2.2.2 =
      [("a", ["x", "z"]), ("b", ["y"])] ∧
    (parse_header_from_lines ["# A: x", "# B: y", "# A: z"]).2.1.values =
      [("A", "z"), ("B", "y")] := by
  decide

/-- C4: bumping a strictly formed `int.int.int` version increments the chosen
component, zeroes every component to its right, strictly increases the tuple
order, and an unparsable version string is treated as `0.0.0` rather than
failing. -/
theorem C4_bump_monotone (h : Header) (fd : List (String × JsonDoc)) (part : String)
    (t : Nat × Nat × Nat)
    (ht : parseVersion (pyStrip (oldVersionOf h fd)) = some t ∨
          (parseVersion (pyStrip (oldVersionOf h fd)) = none ∧ t = (0, 0, 0)))
    (hp : part = "major" ∨ part = "minor" ∨ part = "patch") :
    ∃ t' : Nat × Nat × Nat,
      bump_version_in_file h fd part = some (showVer t'.1 t'.2.1 t'.2.2) ∧
      verLt t t' ∧
      (part = "major" → t' = (t.1 + 1, 0, 0)) ∧
      (part = "minor" → t' = (t.1, t.2.1 + 1, 0)) ∧
      (part = "patch" → t' = (t.1, t.2.1, t.2.2 + 1)) := by
  have hgd : (parseVersion (pyStrip (oldVersionOf h fd))).getD (0, 0, 0) = t := by
    rcases ht with ht | ⟨ht, rfl⟩ <;> simp [ht]
  have hb : ∀ s : String, bump_version_in_file h fd s =
      (if s == "major" then some (showVer (t.1 + 1) 0 0)
       else if s == "minor" then some (showVer t.1 (t.2.1 + 1) 0)
       else if s == "patch" then some (showVer t.1 t.2.1 (t.2.2 + 1))
       else none) := by
    intro s
    unfold bump_version_in_file
    rw [hgd]
  rcases hp with rfl | rfl | rfl
  · exact ⟨(t.1 + 1, 0, 0), by rw [hb]; rfl,
      Or.inl (Nat.lt_succ_self _), fun _ => rfl,
      fun hx => absurd hx (by decide), fun hx => absurd hx (by decide)⟩
  · exact ⟨(t.1, t.2.1 + 1, 0), by rw [hb]; rfl,
      Or.inr ⟨rfl, Or.inl (Nat.lt_succ_self _)⟩,
      fun hx => absurd hx (by decide), fun _ => rfl,
      fun hx => absurd hx (by decide)⟩
  · exact ⟨(t.1, t.2.1, t.2.2 + 1), by rw [hb]; rfl,
      Or.inr ⟨rfl, Or.inr ⟨rfl, Nat.lt_succ_self _⟩⟩,
      fun hx => absurd hx (by decide), fun hx => absurd hx (by decide), fun _ => rfl⟩

theorem C4_bump_monotone_witness :
    (parseVersion (pyStrip (oldVersionOf
        { key_order := ["VERSION"], values := [("VERSION", "1.2.3")],
          raw_comment_lines := [] } [])) = some (1, 2, 3) ∨
      (parseVersion (pyStrip (oldVersionOf
        { key_order := ["VERSION"], values := [("VERSION", "1.2.3")],
          raw_comment_lines := [] } [])) = none ∧ ((1, 2, 3) : Nat × Nat × Nat) = (0, 0, 0))) ∧
    (("minor" : String) = "major" ∨ ("minor" : String) = "minor" ∨ ("minor" : String) = "patch") ∧
    ∃ t' : Nat × Nat × Nat,
      bump_version_in_file
        { key_order := ["VERSION"], values := [("VERSION", "1.2.3")],
          raw_comment_lines := [] } [] "minor" = some (showVer t'.1 t'.2.1 t'.2.2) ∧
      verLt (1, 2, 3) t' ∧
      (("minor" : String) = "major" → t' = (2, 0, 0)) ∧
      (("minor" : String) = "minor" → t' = (1, 3, 0)) ∧
      (("minor" : String) = "patch" → t' = (1, 2, 4)) :=
  ⟨Or.inl (by decide), Or.inr (Or.inl rfl),
    C4_bump_monotone _ [] "minor" (1, 2, 3) (Or.inl (by decide)) (Or.inr (Or.inl rfl))⟩

/-- C5 (amended): `bump_version_in_file` rejects an unknown part token with an
explicit `False` result and writes nothing, but `bump_version_in_tree`'s loop
body has no rejection branch: any token other than `major`/`minor` is treated
exactly like `patch` (only the CLI entry validates the token first). -/
theorem C5_unknown_part_amended (part : String)
    (hmaj : part ≠ "major") (hmin : part ≠ "minor") (hpat : part ≠ "patch") :
    (∀ (path : String) (fd : List (String × JsonDoc)) (mtimeEnv : Option String)
       (now : String) (origLines : List String),
      bump_version_in_file_run path fd mtimeEnv now part origLines = (false, origLines)) ∧
    (∀ (h : Header) (fd : List (String × JsonDoc)),
      bump_tree_newv h fd part = bump_tree_newv h fd "patch") := by
  constructor
  · intro path fd mtimeEnv now origLines
    unfold bump_version_in_file_run bump_version_in_file
    simp [hmaj, hmin, hpat]
  · intro h fd
    unfold bump_tree_newv
    simp [hmaj, hmin]

theorem C5_unknown_part_witness :
    (("frobnicate" : String) ≠ "major" ∧ ("frobnicate" : String) ≠ "minor" ∧
      ("frobnicate" : String) ≠ "patch") ∧
    bump_version_in_file_run "c.py" [] (some "MT") "NOW" "frobnicate"
      ["# VERSION: 0.1.2", "print('x')"] = (false, ["# VERSION: 0.1.2", "print('x')"]) ∧
    bump_tree_newv (parse_header_from_lines ["# VERSION: 0.1.2"]).2.1 [] "frobnicate" =
      bump_tree_newv (parse_header_from_lines ["# VERSION: 0.1.2"]).2.1 [] "patch" :=
  ⟨⟨by decide, by decide, by decide⟩,
    (C5_unknown_part_amended "frobnicate" (by decide) (by decide) (by decide)).1
      "c.py" [] (some "MT") "NOW" ["# VERSION: 0.1.2", "print('x')"],
    (C5_unknown_part_amended "frobnicate" (by decide) (by decide) (by decide)).2
      (parse_header_from_lines ["# VERSION: 0.1.2"]).2.1 []⟩

/-- C5 counterexample: the tree-wide bump with the unknown token
`"frobnicate"` does not reject it; it bumps the patch component from `0.1.2`
to `0.1.3`, reports the file as changed, and writes the file back. -/
theorem C5_counterexample :
    bump_version_in_tree_step "c.py" [] (some "MT") "NOW" "frobnicate" false
        ["# VERSION: 0.1.2", "print('x')"] =
      (some "c.py: 0.1.2 -> 0.1.3",
       some ["# MISSION: tbd.", "# STATUS: tbd.", "# VERSION: 0.1.3", "# NOTES: tbd.",
             "# DATE: MT", "# FILE: c.py", "# AUTHOR: tbd.", "#", "print('x')"]) := by
  decide

/-- C7: loading the folder defaults never fails: a missing file is created
empty and yields the empty mapping, an unreadable file, invalid JSON or a
non-object top level yield the empty mapping, and the keys of a loaded
object are upper-cased. -/
theorem C7_bejson_degrades (kvs : List (String × JsonDoc))
    (hnd : (kvs.map (fun kv => pyUpper kv.1)).Nodup) :
    read_bejson_for_folder .missing = ([], true) ∧
    read_bejson_for_folder .unreadable = ([], false) ∧
    read_bejson_for_folder .badJson = ([], false) ∧
    (∀ d : JsonDoc, (∀ l, d ≠ .jobj l) → read_bejson_for_folder (.content d) = ([], false)) ∧
    read_bejson_for_folder (.content (.jobj kvs)) =
      (kvs.map (fun kv => (pyUpper kv.1, kv.2)), false) := by
  refine ⟨rfl, rfl, rfl, ?_, ?_⟩
  · intro d hd
    cases d with
    | jobj l => exact absurd rfl (hd l)
    | jnull => rfl
    | jbool b => rfl
    | jnum n => rfl
    | jstr s => rfl
    | jarr xs => rfl
  · show (kvs.foldl (fun out kv => dictSet out (pyUpper kv.1) kv.2) [], false) = _
    have main : ∀ (xs : List (String × JsonDoc)) (acc : List (String × JsonDoc)),
        (xs.map (fun kv => pyUpper kv.1)).Nodup →
        (∀ kv ∈ xs, dictGet acc (pyUpper kv.1) = none) →
        xs.foldl (fun out kv => dictSet out (pyUpper kv.1) kv.2) acc =
          acc ++ xs.map (fun kv => (pyUpper kv.1, kv.2)) := by
      intro xs
      induction xs with
      | nil => intro acc _ _; simp
      | cons kv rest ih =>
        intro acc hnd hfresh
        rw [List.map_cons, List.nodup_cons] at hnd
        obtain ⟨hnotin, hnd'⟩ := hnd
        have h1 : dictGet acc (pyUpper kv.1) = none :=
          hfresh kv (List.mem_cons_self kv rest)
        have hfresh' : ∀ kv' ∈ rest,
            dictGet (acc ++ [(pyUpper kv.1, kv.2)]) (pyUpper kv'.1) = none := by
          intro kv' hkv'
          rw [dictGet_append, hfresh kv' (List.mem_cons_of_mem kv hkv')]
          have hmem := List.mem_map_of_mem (fun x : String × JsonDoc => pyUpper x.1) hkv'
          have hne : pyUpper kv.1 ≠ pyUpper kv'.1 := by
            intro he
            rw [he] at hnotin
            exact hnotin hmem
          simp [dictGet, beq_iff_eq, hne]
        simp only [List.foldl_cons]
        rw [dictSet_of_get_none _ _ _ h1, ih (acc ++ [(pyUpper kv.1, kv.2)]) hnd' hfresh']
        simp
    rw [main kvs [] hnd (by intro kv _; rfl)]
    simp

theorem C7_bejson_degrades_witness :
    (([("author", JsonDoc.jstr "Tester"), ("Wrap_Width", JsonDoc.jnum 30)].map
        (fun kv => pyUpper kv.1)).Nodup) ∧
    read_bejson_for_folder
        (.content (.jobj [("author", JsonDoc.jstr "Tester"), ("Wrap_Width", JsonDoc.jnum 30)])) =
      ([("AUTHOR", JsonDoc.jstr "Tester"), ("WRAP_WIDTH", JsonDoc.jnum 30)], false) := by
  have h := C7_bejson_degrades
    [("author", JsonDoc.jstr "Tester"), ("Wrap_Width", JsonDoc.jnum 30)] (by decide)
  refine ⟨by decide, ?_⟩
  have := h.2.2.2.2
  rw [this]
  rfl

/-- C10: with `dry_run=True`, `add_default_header_to_file` writes nothing (the
file contents are untouched), while the returned boolean is exactly the one a
non-dry run would return, and a non-dry run writes the file if and only if it
returns `True`. -/
theorem C10_dry_run_frame (path : String) (fd : List (String × JsonDoc))
    (mtimeEnv : Option String) (now : String) (origLines : List String) :
    (add_default_header_to_file path fd mtimeEnv now origLines true).2 = none ∧
    (add_default_header_to_file path fd mtimeEnv now origLines true).1 =
      (add_default_header_to_file path fd mtimeEnv now origLines false).1 ∧
    ((add_default_header_to_file path fd mtimeEnv now origLines false).2.isSome =
      (add_default_header_to_file path fd mtimeEnv now origLines false).1) := by
  have hup : pyUpper "FILE" = "FILE" := by decide
  simp only [add_default_header_to_file]
  generalize parse_header_from_lines (origLines.map rstripNL) = p
  generalize DEFAULT_ORDER.foldl (addDefaultKey path fd mtimeEnv now) (p.2.1, false) = hc
  obtain ⟨h1, ch⟩ := hc
  have hfile : ((h1.set "FILE" (basename path)).get "FILE" != some (basename path)) = false := by
    have hg : (h1.set "FILE" (basename path)).get "FILE" = some (basename path) := by
      show dictGet (dictSet h1.values (pyUpper "FILE") (basename path)) (pyUpper "FILE") = _
      rw [hup, dictGet_dictSet_self]
    simp [hg]
  cases ch <;> simp [hfile]


theorem chUpper_of_upper {c : Char} (hc : isUpperCh c = true) : chUpper c = c := by
  unfold isUpperCh at hc
  simp only [Bool.and_eq_true, decide_eq_true_eq] at hc
  have hno : ¬ (('a' ≤ c && c ≤ 'z') = true) := by
    intro hcon
    simp only [Bool.and_eq_true, decide_eq_true_eq] at hcon
    exact absurd (le_trans hcon.1 hc.2) (by decide)
  unfold chUpper
  rw [if_neg hno]

theorem upperAlpha_ne_nil {k : String} (hk : isUpperAlpha k = true) : k.data ≠ [] := by
  unfold isUpperAlpha at hk
  simp only [Bool.and_eq_true] at hk
  intro he
  rw [he] at hk
  simp at hk

theorem upperAlpha_all {k : String} (hk : isUpperAlpha k = true) :
    ∀ c ∈ k.data, isUpperCh c = true := by
  unfold isUpperAlpha at hk
  simp only [Bool.and_eq_true, List.all_eq_true] at hk
  exact hk.2

theorem pyUpper_upperAlpha {k : String} (hk : isUpperAlpha k = true) : pyUpper k = k := by
  have hall := upperAlpha_all hk
  show (⟨k.data.map chUpper⟩ : String) = k
  rw [List.map_congr_left (fun c hc => chUpper_of_upper (hall c hc))]
  rw [List.map_id']

theorem pyStartsWith_hash {c : String} {t : List Char} (hd : c.data = '#' :: t) :
    pyStartsWith c "#" = true := by
  unfold pyStartsWith
  rw [hd]
  show (['#'] : List Char).isPrefixOf ('#' :: t) = true
  rw [isPrefixOf_cons_cons, isPrefixOf_nil_left]
  rfl

theorem extract_hash {c : String} (hd : c.data = ['#']) : extractContent c = "" := by
  simp only [extractContent, pyStartsWith_hash hd, if_true]
  rw [hd]
  rfl

theorem extract_hash_space {c : String} {t : List Char} (hd : c.data = '#' :: ' ' :: t) :
    extractContent c = rstripNL ⟨t⟩ := by
  have h1 : pyStartsWith c "#" = true := pyStartsWith_hash hd
  have h2 : pyStartsWith (⟨c.data.drop 1⟩ : String) " " = true := by
    unfold pyStartsWith
    rw [hd]
    show ([' '] : List Char).isPrefixOf (' ' :: t) = true
    rw [isPrefixOf_cons_cons, isPrefixOf_nil_left]
    rfl
  simp only [extractContent, h1, h2, if_true]
  rw [hd]
  rfl

theorem extract_hash_space_str (m : String) : extractContent ("# " ++ m) = rstripNL m := by
  have hd : ("# " ++ m).data = '#' :: ' ' :: m.data := rfl
  rw [extract_hash_space hd]

theorem dropTrailing_idem (p : Char → Bool) (l : List Char) :
    dropTrailing p (dropTrailing p l) = dropTrailing p l := by
  unfold dropTrailing
  rw [List.reverse_reverse, List.dropWhile_idempotent]

theorem rstripNL_mk_colon (k : String) :
    rstripNL ⟨k.data ++ [':']⟩ = ⟨k.data ++ [':']⟩ := by
  show (⟨dropTrailing (fun c => c == '\n') (k.data ++ [':'])⟩ : String) = _
  rw [dropTrailing_eq_self]
  intro c hc
  rw [List.getLast?_append_of_ne_nil _ (by simp)] at hc
  rw [show ([':'] : List Char).getLast? = some ':' from rfl] at hc
  injection hc with hcc
  rw [← hcc]
  decide

theorem keyReMatch_keyline {s k f : String}
    (hs : s.data = k.data ++ (':' :: ' ' :: f.data)) (hk : isUpperAlpha k = true) :
    keyReMatch s = some (k, f) := by
  have hall := upperAlpha_all hk
  have hne := upperAlpha_ne_nil hk
  have htk : s.data.takeWhile isUpperCh = k.data := by
    rw [hs, takeWhile_append_all _ hall (by decide : isUpperCh ':' = false)]
  have hdk : s.data.dropWhile isUpperCh = ':' :: ' ' :: f.data := by
    rw [hs, dropWhile_append_all _ hall (by decide : isUpperCh ':' = false)]
  have hie : (k.data.isEmpty) = false := by
    cases hd : k.data with
    | nil => exact absurd hd hne
    | cons a t => rfl
  simp only [keyReMatch, htk, hdk, hie, Bool.false_eq_true, if_false]
  rfl

theorem keyReMatch_keyline_colon {s k : String}
    (hs : s.data = k.data ++ [':']) (hk : isUpperAlpha k = true) :
    keyReMatch s = some (k, "") := by
  have hall := upperAlpha_all hk
  have hne := upperAlpha_ne_nil hk
  have htk : s.data.takeWhile isUpperCh = k.data := by
    rw [hs, takeWhile_append_all _ hall (by decide : isUpperCh ':' = false)]
  have hdk : s.data.dropWhile isUpperCh = [':'] := by
    rw [hs, dropWhile_append_all _ hall (by decide : isUpperCh ':' = false)]
  have hie : (k.data.isEmpty) = false := by
    cases hd : k.data with
    | nil => exact absurd hd hne
    | cons a t => rfl
  simp only [keyReMatch, htk, hdk, hie, Bool.false_eq_true, if_false]

theorem dictGet_some_mem {β : Type} {d : List (String × β)} {k : String} {v : β}
    (h : dictGet d k = some v) : (k, v) ∈ d := by
  induction d with
  | nil => cases h
  | cons kv rest ih =>
    by_cases hk : (kv.1 == k) = true
    · have hke : kv.1 = k := by simpa using hk
      simp only [dictGet, hk, if_true] at h
      injection h with hv
      exact List.mem_cons.mpr (Or.inl (by rw [← hke, ← hv]))
    · simp only [dictGet, hk, Bool.false_eq_true, if_false] at h
      exact List.mem_cons.mpr (Or.inr (ih h))

theorem dictGet_isSome_mem {β : Type} {d : List (String × β)} {k : String}
    (h : (dictGet d k).isSome = true) : k ∈ d.map Prod.fst := by
  cases hx : dictGet d k with
  | none => rw [hx] at h; cases h
  | some v => exact List.mem_map_of_mem Prod.fst (dictGet_some_mem hx)

theorem mem_keys_dictGet_isSome {β : Type} {d : List (String × β)} {k : String}
    (h : k ∈ d.map Prod.fst) : (dictGet d k).isSome = true := by
  induction d with
  | nil => cases h
  | cons kv rest ih =>
    rw [List.map_cons] at h
    rcases List.mem_cons.mp h with he | hm
    · simp [dictGet, he]
    · by_cases hk : (kv.1 == k) = true
      · simp [dictGet, hk]
      · simp [dictGet, hk, ih hm]

theorem dictGet_none_of_not_mem {β : Type} {d : List (String × β)} {k : String}
    (h : k ∉ d.map Prod.fst) : dictGet d k = none := by
  cases hx : dictGet d k with
  | none => rfl
  | some v => exact absurd (dictGet_isSome_mem (by rw [hx]; rfl)) h

theorem dictGet_map_none (l : List String) (f : String → String) (k : String)
    (hk : k ∉ l) : dictGet (l.map (fun x => (x, f x))) k = none := by
  apply dictGet_none_of_not_mem
  rw [map_fst_keyed]
  exact hk

theorem guardedNew_all_seen {α : Type} (key : α → String) (seen : List String)
    (xs : List α) (h : ∀ x ∈ xs, seen.contains (key x) = true) :
    guardedNew key seen xs = [] := by
  induction xs with
  | nil => rfl
  | cons x rest ih =>
    have hx := h x (List.mem_cons_self x rest)
    simp only [guardedNew, hx, if_true]
    exact ih (fun y hy => h y (List.mem_cons_of_mem x hy))

theorem takeWhile_all {α : Type} {p : α → Bool} {l : List α}
    (h : ∀ a ∈ l, p a = true) : l.takeWhile p = l := by
  induction l with
  | nil => rfl
  | cons a t ih =>
    rw [List.takeWhile_cons_of_pos (h a (List.mem_cons_self a t))]
    exact congrArg (a :: ·) (ih (fun b hb => h b (List.mem_cons_of_mem a hb)))

theorem dropWhile_all_pos {α : Type} {p : α → Bool} {l : List α}
    (h : ∀ a ∈ l, p a = true) : l.dropWhile p = [] := by
  induction l with
  | nil => rfl
  | cons a t ih =>
    rw [List.dropWhile_cons_of_pos (h a (List.mem_cons_self a t))]
    exact ih (fun b hb => h b (List.mem_cons_of_mem a hb))

theorem dropWhile_head_prop {α : Type} (p : α → Bool) (l : List α) :
    ∀ x, (l.dropWhile p).head? = some x → p x = false := by
  induction l with
  | nil => intro x hx; cases hx
  | cons a t ih =>
    intro x hx
    rw [List.dropWhile_cons] at hx
    by_cases hp : p a = true
    · rw [if_pos hp] at hx
      exact ih x hx
    · rw [if_neg hp] at hx
      injection hx with hax
      rw [← hax]
      exact bool_not_true hp

theorem rstripNL_noop_no_nl {s : String} (h : '\n' ∉ s.data) : rstripNL s = s := by
  have hall : ∀ a ∈ s.data, (a == '\n') = false := by
    intro a ha
    by_cases he : a = '\n'
    · exact absurd (he ▸ ha) h
    · exact beq_eq_false_iff_ne.mpr he
  show (⟨dropTrailing (fun c => c == '\n') s.data⟩ : String) = s
  rw [dropTrailing_all_neg hall]

theorem joinNL_append_empty (ls : List String) (hne : ls ≠ []) :
    joinNL (ls ++ [""]) = joinNL ls ++ "\n" := by
  induction ls with
  | nil => exact absurd rfl hne
  | cons x xs ih =>
    cases xs with
    | nil =>
      show (x ++ "\n") ++ "" = x ++ "\n"
      show String.mk ((x.data ++ ['\n']) ++ []) = String.mk (x.data ++ ['\n'])
      rw [List.append_nil]
    | cons y ys =>
      show x ++ "\n" ++ joinNL ((y :: ys) ++ [""]) = (x ++ "\n" ++ joinNL (y :: ys)) ++ "\n"
      rw [ih (by simp)]
      exact (strAppend_assoc (x ++ "\n") (joinNL (y :: ys)) "\n").symm

theorem pyRstrip_append_nl (s : String) : pyRstrip (s ++ "\n") = pyRstrip s := by
  show (⟨dropTrailing isPyWs (s.data ++ ['\n'])⟩ : String) = ⟨dropTrailing isPyWs s.data⟩
  unfold dropTrailing
  rw [show (s.data ++ ['\n']).reverse = '\n' :: s.data.reverse from by
    rw [List.reverse_append]
    simp]
  rw [List.dropWhile_cons_of_pos (by decide : isPyWs '\n' = true)]

theorem pyRstrip_joinNL_empty (ls : List String) :
    pyRstrip (joinNL (ls ++ [""])) = pyRstrip (joinNL ls) := by
  cases ls with
  | nil => rfl
  | cons x xs =>
    rw [joinNL_append_empty (x :: xs) (by simp), pyRstrip_append_nl]

theorem pyRstrip_joinNL_entryLines {v : String} (hv : normalVal v = true) :
    pyRstrip (joinNL (entryLinesOf v)) = v := by
  unfold normalVal at hv
  simp only [Bool.and_eq_true, beq_iff_eq] at hv
  obtain ⟨h1, _⟩ := hv
  cases hsp : pySplitlines v with
  | nil =>
    rw [hsp] at h1
    simp only [entryLinesOf, hsp]
    rw [← h1]
    rfl
  | cons a t =>
    rw [hsp] at h1
    simp only [entryLinesOf, hsp]
    exact h1

theorem phStep_key {c X k f : String} (hx : extractContent c = X)
    (hm : keyReMatch X = some (k, f)) (cur0 : Option (String × List String)) (hdr : Header) :
    phStep ⟨cur0, hdr⟩ c =
      ⟨some (pyUpper k, [pyRstrip f]),
       match cur0 with
       | some cu => hdr.set cu.1 (pyRstrip (joinNL cu.2))
       | none => hdr⟩ := by
  simp only [phStep, hx, hm]

theorem phStep_cont {c m : String} (hx : extractContent c = m)
    (hm : keyReMatch m = none) (hr : pyRstrip m = m) (k : String) (ls : List String)
    (hdr : Header) :
    phStep ⟨some (k, ls), hdr⟩ c = ⟨some (k, ls ++ [m]), hdr⟩ := by
  simp only [phStep, hx, hm, hr]

theorem extract_contLine {m : String} (hr : pyRstrip m = m) :
    extractContent (contLine m) = m := by
  by_cases he : m = ""
  · subst he
    rfl
  · unfold contLine
    rw [show (m == "") = false from beq_eq_false_iff_ne.mpr he]
    simp only [Bool.false_eq_true, if_false]
    rw [extract_hash_space_str, rstripNL_of_pyRstrip hr]

theorem processCont_map {g : String → String} {ms : List String}
    (hg : ∀ m ∈ ms, extractContent (g m) = m ∧ keyReMatch m = none ∧ pyRstrip m = m) :
    ∀ (k : String) (ls : List String) (hdr : Header),
    (ms.map g).foldl phStep ⟨some (k, ls), hdr⟩ = ⟨some (k, ls ++ ms), hdr⟩ := by
  induction ms with
  | nil =>
    intro k ls hdr
    simp
  | cons m rest ih =>
    intro k ls hdr
    rw [List.map_cons, List.foldl_cons]
    obtain ⟨h1, h2, h3⟩ := hg m (List.mem_cons_self m rest)
    rw [phStep_cont h1 h2 h3]
    rw [ih (fun x hx => hg x (List.mem_cons_of_mem m hx))]
    simp [List.append_assoc]

theorem processBlock (ww : Nat) (k v : String) (hg : goodEntryP ww (k, v)) :
    ∀ (cur0 : Option (String × List String)) (hdr : Header),
    (renderEntry ww k v).foldl phStep ⟨cur0, hdr⟩ =
      ⟨some (k, entryLinesOf v),
       match cur0 with
       | some cu => hdr.set cu.1 (pyRstrip (joinNL cu.2))
       | none => hdr⟩ := by
  obtain ⟨hup, hpre, hnv, hnc, hmw⟩ := hg
  have hlines : ∀ l ∈ pySplitlines v, pyRstrip l = l := by
    unfold normalVal at hnv
    simp only [Bool.and_eq_true, List.all_eq_true, beq_iff_eq] at hnv
    exact hnv.2
  have hconts : ∀ l ∈ (pySplitlines v).tail, keyReMatch l = none := by
    unfold noKeyLikeCont at hnc
    simp only [List.all_eq_true, Option.isNone_iff_eq_none] at hnc
    exact hnc
  have hpreb : (k == "PREAMBLE") = false := beq_eq_false_iff_ne.mpr hpre
  have hpup : pyUpper k = k := pyUpper_upperAlpha hup
  intro cur0 hdr
  by_cases hmis : k = "MISSION"
  · subst hmis
    cases hsp : pySplitlines v with
    | nil =>
      rw [show renderEntry ww "MISSION" v = ["# MISSION: "] from by
        simp only [renderEntry, hmw rfl, hsp]
        rfl]
      rw [List.foldl_cons, List.foldl_nil]
      rw [@phStep_key "# MISSION: " "MISSION: " "MISSION" "" rfl rfl cur0 hdr]
      simp only [entryLinesOf, hsp]
      rfl
    | cons f fs =>
      rw [show renderEntry ww "MISSION" v =
          ("# " ++ "MISSION" ++ ": " ++ f) :: fs.map (fun l => "# " ++ l) from by
        simp only [renderEntry, hmw rfl, hsp]
        rfl]
      rw [List.foldl_cons]
      have hf : pyRstrip f = f := hlines f (hsp ▸ List.mem_cons_self f fs)
      have hd1 : ("# " ++ "MISSION" ++ ": " ++ f).data
          = '#' :: ' ' :: ("MISSION".data ++ (':' :: ' ' :: f.data)) := rfl
      have hx1 : extractContent ("# " ++ "MISSION" ++ ": " ++ f)
          = "MISSION" ++ (": " ++ f) := by
        rw [extract_hash_space hd1]
        exact rstripNL_keyContent "MISSION" f hf
      have hm1 : keyReMatch ("MISSION" ++ (": " ++ f)) = some ("MISSION", f) :=
        keyReMatch_keyline rfl (by decide)
      rw [phStep_key hx1 hm1 cur0 hdr]
      have hgc : ∀ m ∈ fs, extractContent ("# " ++ m) = m ∧ keyReMatch m = none ∧
          pyRstrip m = m := by
        intro m hm
        have hmr : pyRstrip m = m :=
          hlines m (hsp ▸ List.mem_cons_of_mem f hm)
        refine ⟨?_, ?_, hmr⟩
        · rw [extract_hash_space_str, rstripNL_of_pyRstrip hmr]
        · exact hconts m (by rw [hsp]; exact hm)
      rw [processCont_map hgc]
      simp only [entryLinesOf, hsp]
      rw [hf]
      rfl
  · have hmisb : (k == "MISSION") = false := beq_eq_false_iff_ne.mpr hmis
    cases hsp : pySplitlines v with
    | nil =>
      rw [show renderEntry ww k v = ["# " ++ k ++ ":"] from by
        simp only [renderEntry, hpreb, hmisb, Bool.false_eq_true, if_false, hsp]]
      rw [List.foldl_cons, List.foldl_nil]
      have hd1 : ("# " ++ k ++ ":").data = '#' :: ' ' :: (k.data ++ [':']) := rfl
      have hx1 : extractContent ("# " ++ k ++ ":") = ⟨k.data ++ [':']⟩ := by
        rw [extract_hash_space hd1]
        exact rstripNL_mk_colon k
      have hm1 : keyReMatch (⟨k.data ++ [':']⟩ : String) = some (k, "") :=
        keyReMatch_keyline_colon rfl hup
      rw [phStep_key hx1 hm1 cur0 hdr]
      simp only [entryLinesOf, hsp]
      rw [hpup]
      rfl
    | cons f fs =>
      have hgc : ∀ m ∈ fs, extractContent (contLine m) = m ∧ keyReMatch m = none ∧
          pyRstrip m = m := by
        intro m hm
        have hmr : pyRstrip m = m :=
          hlines m (hsp ▸ List.mem_cons_of_mem f hm)
        exact ⟨extract_contLine hmr, hconts m (by rw [hsp]; exact hm), hmr⟩
      have hf : pyRstrip f = f := hlines f (hsp ▸ List.mem_cons_self f fs)
      by_cases hfe : f = ""
      · subst hfe
        rw [show renderEntry ww k v = ("# " ++ k ++ ":") :: fs.map contLine from by
          simp only [renderEntry, hpreb, hmisb, Bool.false_eq_true, if_false, hsp]
          rfl]
        rw [List.foldl_cons]
        have hd1 : ("# " ++ k ++ ":").data = '#' :: ' ' :: (k.data ++ [':']) := rfl
        have hx1 : extractContent ("# " ++ k ++ ":") = ⟨k.data ++ [':']⟩ := by
          rw [extract_hash_space hd1]
          exact rstripNL_mk_colon k
        have hm1 : keyReMatch (⟨k.data ++ [':']⟩ : String) = some (k, "") :=
          keyReMatch_keyline_colon rfl hup
        rw [phStep_key hx1 hm1 cur0 hdr]
        rw [processCont_map hgc]
        simp only [entryLinesOf, hsp]
        rw [hpup]
        rfl
      · rw [show renderEntry ww k v = ("# " ++ k ++ ": " ++ f) :: fs.map contLine from by
          simp only [renderEntry, hpreb, hmisb, Bool.false_eq_true, if_false, hsp,
            beq_eq_false_iff_ne.mpr hfe]]
        rw [List.foldl_cons]
        have hd1 : ("# " ++ k ++ ": " ++ f).data
            = '#' :: ' ' :: ((k.data ++ [':', ' ']) ++ f.data) := rfl
        have hassoc : ((k.data ++ [':', ' ']) ++ f.data) = k.data ++ (':' :: ' ' :: f.data) := by
          rw [List.append_assoc]
          rfl
        have hx1 : extractContent ("# " ++ k ++ ": " ++ f) = k ++ (": " ++ f) := by
          rw [extract_hash_space hd1, hassoc]
          exact rstripNL_keyContent k f hf
        have hm1 : keyReMatch (k ++ (": " ++ f)) = some (k, f) :=
          keyReMatch_keyline rfl hup
        rw [phStep_key hx1 hm1 cur0 hdr]
        rw [processCont_map hgc]
        simp only [entryLinesOf, hsp]
        rw [hpup, hf]
        rfl

theorem processBlocksHash (ww : Nat) (entries : List (String × String))
    (hgood : ∀ kv ∈ entries, goodEntryP ww kv) :
    ∀ (k₀ : String) (ls₀ : List String) (hdr : Header),
    phFinish ((renderAll ww entries ++ ["#"]).foldl phStep ⟨some (k₀, ls₀), hdr⟩) =
      entries.foldl (fun hh kv => hh.set kv.1 kv.2) (hdr.set k₀ (pyRstrip (joinNL ls₀))) := by
  induction entries with
  | nil =>
    intro k₀ ls₀ hdr
    show phFinish (List.foldl phStep ⟨some (k₀, ls₀), hdr⟩ ["#"]) = _
    rw [List.foldl_cons, List.foldl_nil]
    rw [phStep_cont (extract_hash rfl) rfl rfl k₀ ls₀ hdr]
    show hdr.set k₀ (pyRstrip (joinNL (ls₀ ++ [""]))) = hdr.set k₀ (pyRstrip (joinNL ls₀))
    rw [pyRstrip_joinNL_empty]
  | cons e rest ih =>
    intro k₀ ls₀ hdr
    rw [show renderAll ww (e :: rest) ++ ["#"]
        = renderEntry ww e.1 e.2 ++ (renderAll ww rest ++ ["#"]) from by
      rw [show renderAll ww (e :: rest) = renderEntry ww e.1 e.2 ++ renderAll ww rest from rfl,
        List.append_assoc]]
    rw [List.foldl_append]
    rw [processBlock ww e.1 e.2 (hgood e (List.mem_cons_self e rest)) (some (k₀, ls₀)) hdr]
    rw [ih (fun kv hkv => hgood kv (List.mem_cons_of_mem e hkv))]
    rw [pyRstrip_joinNL_entryLines (hgood e (List.mem_cons_self e rest)).2.2.1]
    rfl

theorem renderEntry_lines_shape (ww : Nat) (k v : String) (hpre : k ≠ "PREAMBLE") :
    ∀ c ∈ renderEntry ww k v, (∃ t, c.data = '#' :: ' ' :: t) ∨ c.data = ['#'] := by
  have hpreb : (k == "PREAMBLE") = false := beq_eq_false_iff_ne.mpr hpre
  by_cases hm : k = "MISSION"
  · subst hm
    cases hw : wrapText ww v with
    | nil =>
      rw [show renderEntry ww "MISSION" v = ["# MISSION: "] from by
        simp only [renderEntry, hw]
        rfl]
      intro c hc
      rw [List.mem_singleton] at hc
      subst hc
      exact Or.inl ⟨_, rfl⟩
    | cons w0 ws =>
      rw [show renderEntry ww "MISSION" v
          = ("# " ++ "MISSION" ++ ": " ++ w0) :: ws.map (fun l => "# " ++ l) from by
        simp only [renderEntry, hw]
        rfl]
      intro c hc
      rcases List.mem_cons.mp hc with he | hc2
      · subst he
        exact Or.inl ⟨_, rfl⟩
      · obtain ⟨m, hm2, hme⟩ := List.mem_map.mp hc2
        rw [← hme]
        exact Or.inl ⟨m.data, rfl⟩
  · have hmisb : (k == "MISSION") = false := beq_eq_false_iff_ne.mpr hm
    have hcont : ∀ m : String, (∃ t, (contLine m).data = '#' :: ' ' :: t)
        ∨ (contLine m).data = ['#'] := by
      intro m
      by_cases hme2 : m = ""
      · subst hme2
        exact Or.inr rfl
      · refine Or.inl ⟨m.data, ?_⟩
        unfold contLine
        rw [show (m == "") = false from beq_eq_false_iff_ne.mpr hme2]
        rfl
    cases hsp : pySplitlines v with
    | nil =>
      rw [show renderEntry ww k v = ["# " ++ k ++ ":"] from by
        simp only [renderEntry, hpreb, hmisb, Bool.false_eq_true, if_false, hsp]]
      intro c hc
      rw [List.mem_singleton] at hc
      subst hc
      exact Or.inl ⟨_, rfl⟩
    | cons f fs =>
      by_cases hfe : f = ""
      · subst hfe
        rw [show renderEntry ww k v = ("# " ++ k ++ ":") :: fs.map contLine from by
          simp only [renderEntry, hpreb, hmisb, Bool.false_eq_true, if_false, hsp]
          rfl]
        intro c hc
        rcases List.mem_cons.mp hc with he | hc2
        · subst he
          exact Or.inl ⟨_, rfl⟩
        · obtain ⟨m, hm2, hme⟩ := List.mem_map.mp hc2
          rw [← hme]
          exact hcont m
      · rw [show renderEntry ww k v = ("# " ++ k ++ ": " ++ f) :: fs.map contLine from by
          simp only [renderEntry, hpreb, hmisb, Bool.false_eq_true, if_false, hsp,
            beq_eq_false_iff_ne.mpr hfe]]
        intro c hc
        rcases List.mem_cons.mp hc with he | hc2
        · subst he
          exact Or.inl ⟨_, rfl⟩
        · obtain ⟨m, hm2, hme⟩ := List.mem_map.mp hc2
          rw [← hme]
          exact hcont m

theorem renderAll_lines_shape (ww : Nat) (entries : List (String × String))
    (hpre : ∀ kv ∈ entries, kv.1 ≠ "PREAMBLE") :
    ∀ c ∈ renderAll ww entries, (∃ t, c.data = '#' :: ' ' :: t) ∨ c.data = ['#'] := by
  induction entries with
  | nil =>
    intro c hc
    cases hc
  | cons e rest ih =>
    intro c hc
    rw [show renderAll ww (e :: rest) = renderEntry ww e.1 e.2 ++ renderAll ww rest from rfl] at hc
    rcases List.mem_append.mp hc with hc1 | hc2
    · exact renderEntry_lines_shape ww e.1 e.2 (hpre e (List.mem_cons_self e rest)) c hc1
    · exact ih (fun kv hkv => hpre kv (List.mem_cons_of_mem e hkv)) c hc2

theorem rstripNL_data_hs {c : String} {t : List Char} (hd : c.data = '#' :: ' ' :: t) :
    (rstripNL c).data = '#' :: ' ' :: dropTrailing (fun x => x == '\n') t := by
  show dropTrailing (fun x => x == '\n') c.data = _
  rw [hd, dropTrailing_cons_neg _ (by decide), dropTrailing_cons_neg _ (by decide)]

theorem extract_rstripNL_hs {c : String} {t : List Char} (hd : c.data = '#' :: ' ' :: t) :
    extractContent (rstripNL c) = extractContent c := by
  rw [extract_hash_space (rstripNL_data_hs hd), extract_hash_space hd]
  show (⟨dropTrailing (fun x => x == '\n') (dropTrailing (fun x => x == '\n') t)⟩ : String)
      = ⟨dropTrailing (fun x => x == '\n') t⟩
  rw [dropTrailing_idem]

theorem rstripNL_hash {c : String} (hd : c.data = ['#']) : rstripNL c = c := by
  show (⟨dropTrailing (fun x => x == '\n') c.data⟩ : String) = c
  rw [show dropTrailing (fun x => x == '\n') c.data = c.data from by rw [hd]; rfl]

theorem isCommentLine_rstripNL_shape {c : String}
    (h : (∃ t, c.data = '#' :: ' ' :: t) ∨ c.data = ['#']) :
    isCommentLine (rstripNL c) = true := by
  rcases h with ⟨t, hd⟩ | hd
  · exact isCommentLine_hash (rstripNL_data_hs hd)
  · rw [rstripNL_hash hd]
    exact isCommentLine_hash hd

theorem extract_rstripNL_shape {c : String}
    (h : (∃ t, c.data = '#' :: ' ' :: t) ∨ c.data = ['#']) :
    extractContent (rstripNL c) = extractContent c := by
  rcases h with ⟨t, hd⟩ | hd
  · exact extract_rstripNL_hs hd
  · rw [rstripNL_hash hd]

theorem foldl_phStep_rstripNL {A : List String}
    (hA : ∀ c ∈ A, extractContent (rstripNL c) = extractContent c) :
    ∀ st : PHState, (A.map rstripNL).foldl phStep st = A.foldl phStep st := by
  induction A with
  | nil =>
    intro st
    rfl
  | cons c rest ih =>
    intro st
    rw [List.map_cons, List.foldl_cons, List.foldl_cons]
    rw [show phStep st (rstripNL c) = phStep st c from by
      simp only [phStep, hA c (List.mem_cons_self c rest)]]
    exact ih (fun x hx => hA x (List.mem_cons_of_mem c hx)) (phStep st c)

theorem map_self_of {α : Type} {f : α → α} {l : List α} (h : ∀ a ∈ l, f a = a) :
    l.map f = l := by
  induction l with
  | nil => rfl
  | cons a t ih =>
    rw [List.map_cons, h a (List.mem_cons_self a t),
      ih (fun b hb => h b (List.mem_cons_of_mem a hb))]

theorem renderEntry_head_hs (ww : Nat) (k v : String) (hpre : k ≠ "PREAMBLE") :
    ∃ (c : String) (ls : List String) (t : List Char),
      renderEntry ww k v = c :: ls ∧ c.data = '#' :: ' ' :: t := by
  have hpreb : (k == "PREAMBLE") = false := beq_eq_false_iff_ne.mpr hpre
  by_cases hm : k = "MISSION"
  · subst hm
    cases hw : wrapText ww v with
    | nil =>
      refine ⟨"# MISSION: ", [], _, ?_, rfl⟩
      simp only [renderEntry, hw]
      rfl
    | cons w0 ws =>
      refine ⟨"# " ++ "MISSION" ++ ": " ++ w0, ws.map (fun l => "# " ++ l), _, ?_, rfl⟩
      simp only [renderEntry, hw]
      rfl
  · have hmisb : (k == "MISSION") = false := beq_eq_false_iff_ne.mpr hm
    cases hsp : pySplitlines v with
    | nil =>
      refine ⟨"# " ++ k ++ ":", [], k.data ++ [':'], ?_, rfl⟩
      simp only [renderEntry, hpreb, hmisb, Bool.false_eq_true, if_false, hsp]
    | cons f fs =>
      by_cases hfe : f = ""
      · subst hfe
        refine ⟨"# " ++ k ++ ":", fs.map contLine, k.data ++ [':'], ?_, rfl⟩
        simp only [renderEntry, hpreb, hmisb, Bool.false_eq_true, if_false, hsp]
        rfl
      · refine ⟨"# " ++ k ++ ": " ++ f, fs.map contLine, (k.data ++ [':', ' ']) ++ f.data,
          ?_, rfl⟩
        simp only [renderEntry, hpreb, hmisb, Bool.false_eq_true, if_false, hsp,
          beq_eq_false_iff_ne.mpr hfe]

theorem foldlSet_values (entries : List (String × String)) :
    ∀ h0 : Header,
    (∀ kv ∈ entries, pyUpper kv.1 = kv.1) →
    ((entries.map Prod.fst).Nodup) →
    (∀ kv ∈ entries, dictGet h0.values kv.1 = none) →
    (entries.foldl (fun hh kv => hh.set kv.1 kv.2) h0).values = h0.values ++ entries := by
  induction entries with
  | nil =>
    intro h0 _ _ _
    simp
  | cons e rest ih =>
    intro h0 hup hnd hfresh
    rw [List.foldl_cons]
    have hvals_set : (h0.set e.1 e.2).values = h0.values ++ [e] := by
      show dictSet h0.values (pyUpper e.1) e.2 = _
      rw [hup e (List.mem_cons_self e rest)]
      rw [dictSet_of_get_none _ _ _ (hfresh e (List.mem_cons_self e rest))]
    rw [List.map_cons, List.nodup_cons] at hnd
    rw [ih (h0.set e.1 e.2) (fun kv hkv => hup kv (List.mem_cons_of_mem e hkv)) hnd.2 ?_]
    · rw [hvals_set, List.append_assoc]
      rfl
    · intro kv hkv
      rw [hvals_set, dictGet_append]
      rw [hfresh kv (List.mem_cons_of_mem e hkv)]
      have hne : (e.1 == kv.1) = false := by
        apply beq_eq_false_iff_ne.mpr
        intro he
        exact hnd.1 (by rw [he]; exact List.mem_map_of_mem Prod.fst hkv)
      show dictGet [e] kv.1 = none
      simp [dictGet, hne]

theorem bool_false_ne_true {b : Bool} (h : b = false) : ¬ b = true := by
  intro hc
  rw [h] at hc
  cases hc

theorem ordered_entries_char (h : Header) (fd : List (String × JsonDoc)) (path : String)
    (mtimeEnv : Option String) (now : String)
    (hwf : h.key_order = h.values.map Prod.fst)
    (hnd : (h.values.map Prod.fst).Nodup)
    (hFILE : (dictGet h.values "FILE").isSome = true) :
    (h.set "FILE" (basename path)).to_ordered_list fd (some path) mtimeEnv now =
      DEFAULT_ORDER.map (fun k =>
        (k, fixedVal (h.set "FILE" (basename path)) fd (some path) mtimeEnv now k))
      ++ (h.key_order.filter (fun x => !DEFAULT_ORDER.contains x)).map
          (fun k => (k, (dictGet (h.set "FILE" (basename path)).values k).getD
            (default_for fd (some path) mtimeEnv now k))) := by
  have hcontF : h.key_order.contains "FILE" = true := by
    rw [hwf]
    exact (contains_true_iff _ _).mpr (dictGet_isSome_mem hFILE)
  have hko_set : (h.set "FILE" (basename path)).key_order = h.key_order := by
    show (if h.key_order.contains (pyUpper "FILE") = true then h.key_order
          else h.key_order ++ [pyUpper "FILE"]) = h.key_order
    rw [show pyUpper "FILE" = "FILE" from by decide]
    rw [if_pos hcontF]
  have hvals_set_fst : (h.set "FILE" (basename path)).values.map Prod.fst
      = h.values.map Prod.fst := by
    show (dictSet h.values (pyUpper "FILE") (basename path)).map Prod.fst = _
    rw [show pyUpper "FILE" = "FILE" from by decide]
    exact dictSet_map_fst_of_get_some _ _ _ hFILE
  have hko_nd : h.key_order.Nodup := by rw [hwf]; exact hnd
  have hg2 : guardedNew (fun k => k) DEFAULT_ORDER h.key_order
      = h.key_order.filter (fun x => !DEFAULT_ORDER.contains x) :=
    guardedNew_eq_filter (fun k => k) h.key_order DEFAULT_ORDER
      (by rw [List.map_id']; exact hko_nd)
  have hg3 : guardedNew Prod.fst
      (DEFAULT_ORDER ++ h.key_order.filter (fun x => !DEFAULT_ORDER.contains x))
      (h.set "FILE" (basename path)).values = [] := by
    apply guardedNew_all_seen
    intro x hx
    have hx1 : x.1 ∈ h.values.map Prod.fst := by
      rw [← hvals_set_fst]
      exact List.mem_map_of_mem Prod.fst hx
    have hx2 : x.1 ∈ h.key_order := by
      rw [hwf]
      exact hx1
    apply (contains_true_iff _ _).mpr
    by_cases hD : x.1 ∈ DEFAULT_ORDER
    · exact List.mem_append_left _ hD
    · apply List.mem_append_right
      rw [List.mem_filter]
      exact ⟨hx2, by rw [(contains_false_iff _ _).mpr hD]; rfl⟩
  rw [to_ordered_list_unfold, hko_set, hg2, hg3, List.append_nil]

theorem parse_cons_no_shebang (l0 : String) (lt : List String)
    (hsb : pyStartsWith l0 "#!" = false) :
    (parse_header_from_lines (l0 :: lt)).2.1.values
      = (phFinish (((((l0 :: lt)).takeWhile isCommentLine).map rstripNL).foldl phStep
          ({} : PHState))).values := by
  simp only [parse_header_from_lines]
  rw [if_neg (bool_false_ne_true hsb)]
  rfl

theorem parse_cons_shebang (l0 : String) (lt : List String)
    (hsb : pyStartsWith l0 "#!" = true) :
    (parse_header_from_lines (l0 :: lt)).2.1.values
      = (phFinish (((lt.takeWhile isCommentLine).map rstripNL).foldl phStep
          ({} : PHState))).values := by
  simp only [parse_header_from_lines]
  rw [if_pos hsb]
  rfl

theorem parse_cons_rest_no_shebang (l0 : String) (lt : List String)
    (hsb : pyStartsWith l0 "#!" = false) :
    (parse_header_from_lines (l0 :: lt)).2.2
      = (((l0 :: lt)).dropWhile isCommentLine).map rstripNL := by
  simp only [parse_header_from_lines]
  rw [if_neg (bool_false_ne_true hsb)]
  rfl

theorem parse_cons_rest_shebang (l0 : String) (lt : List String)
    (hsb : pyStartsWith l0 "#!" = true) :
    (parse_header_from_lines (l0 :: lt)).2.2
      = (lt.dropWhile isCommentLine).map rstripNL := by
  simp only [parse_header_from_lines]
  rw [if_pos hsb]
  rfl

theorem rest_facts_of_body (body orig : List String) (hsub : body ⊆ orig)
    (hnl : ∀ l ∈ orig, '\n' ∉ l.data) :
    (∀ l ∈ (body.dropWhile isCommentLine).map rstripNL, '\n' ∉ l.data) ∧
    (∀ x xs, (body.dropWhile isCommentLine).map rstripNL = x :: xs →
      isCommentLine x = false) := by
  constructor
  · intro l hl
    obtain ⟨m, hm2, hme⟩ := List.mem_map.mp hl
    have hnlm : '\n' ∉ m.data := hnl m (hsub ((List.dropWhile_suffix isCommentLine).subset hm2))
    rw [← hme, rstripNL_noop_no_nl hnlm]
    exact hnlm
  · intro x xs hx
    cases hdw : body.dropWhile isCommentLine with
    | nil =>
      rw [hdw] at hx
      cases hx
    | cons y ys =>
      rw [hdw, List.map_cons] at hx
      injection hx with hx1 hx2
      have hy : isCommentLine y = false := by
        apply dropWhile_head_prop isCommentLine body
        rw [hdw]
        rfl
      have hyne : '\n' ∉ y.data := hnl y (hsub ((List.dropWhile_suffix isCommentLine).subset
        (by rw [hdw]; exact List.mem_cons_self y ys)))
      rw [← hx1, rstripNL_noop_no_nl hyne]
      exact hy

theorem parse_rest_facts (lines : List String) (hnl : ∀ l ∈ lines, '\n' ∉ l.data) :
    (∀ l ∈ (parse_header_from_lines lines).2.2, '\n' ∉ l.data) ∧
    (∀ x xs, (parse_header_from_lines lines).2.2 = x :: xs → isCommentLine x = false) := by
  cases lines with
  | nil =>
    constructor
    · intro l hl
      cases hl
    · intro x xs hx
      cases hx
  | cons l0 lt =>
    by_cases hsb : pyStartsWith l0 "#!" = true
    · rw [parse_cons_rest_shebang l0 lt hsb]
      exact rest_facts_of_body lt (l0 :: lt) (fun a ha => List.mem_cons_of_mem l0 ha) hnl
    · rw [parse_cons_rest_no_shebang l0 lt (bool_not_true hsb)]
      exact rest_facts_of_body (l0 :: lt) (l0 :: lt) (fun a ha => ha) hnl

theorem parse_body_values (ww : Nat) (e0 : String × String) (erest : List (String × String))
    (rest0 : List String) (lines : List String)
    (hlines : lines = ((renderAll ww (e0 :: erest)).map rstripNL ++ ["#"]) ++ rest0)
    (hgoodE : ∀ kv ∈ e0 :: erest, goodEntryP ww kv)
    (hupE : ∀ kv ∈ e0 :: erest, pyUpper kv.1 = kv.1)
    (hndE : ((e0 :: erest).map Prod.fst).Nodup)
    (hrest_head : ∀ x xs, rest0 = x :: xs → isCommentLine x = false) :
    (phFinish (((lines.takeWhile isCommentLine).map rstripNL).foldl phStep
      ({} : PHState))).values = e0 :: erest := by
  subst hlines
  have hshape := renderAll_lines_shape ww (e0 :: erest) (fun kv hkv => (hgoodE kv hkv).2.1)
  have hallcomment : ∀ c ∈ (renderAll ww (e0 :: erest)).map rstripNL ++ ["#"],
      isCommentLine c = true := by
    intro c hc
    rcases List.mem_append.mp hc with hc | hc
    · obtain ⟨m, hm2, hme⟩ := List.mem_map.mp hc
      rw [← hme]
      exact isCommentLine_rstripNL_shape (hshape m hm2)
    · rw [List.mem_singleton] at hc
      subst hc
      decide
  have htw : (((renderAll ww (e0 :: erest)).map rstripNL ++ ["#"]) ++ rest0).takeWhile
      isCommentLine = (renderAll ww (e0 :: erest)).map rstripNL ++ ["#"] := by
    cases hr0 : rest0 with
    | nil =>
      rw [List.append_nil]
      exact takeWhile_all hallcomment
    | cons x xs =>
      exact takeWhile_append_all xs hallcomment (hrest_head x xs hr0)
  rw [htw]
  rw [show ((renderAll ww (e0 :: erest)).map rstripNL ++ ["#"]).map rstripNL
      = (renderAll ww (e0 :: erest)).map rstripNL ++ ["#"] from by
    rw [List.map_append, List.map_map]
    rw [show List.map (rstripNL ∘ rstripNL) (renderAll ww (e0 :: erest))
        = List.map rstripNL (renderAll ww (e0 :: erest)) from
      List.map_congr_left (fun a ha => rstripNL_idem a)]
    rfl]
  rw [List.foldl_append]
  rw [foldl_phStep_rstripNL (fun c hc => extract_rstripNL_shape (hshape c hc))]
  rw [← List.foldl_append]
  rw [show renderAll ww (e0 :: erest) ++ ["#"]
      = renderEntry ww e0.1 e0.2 ++ (renderAll ww erest ++ ["#"]) from by
    rw [show renderAll ww (e0 :: erest) = renderEntry ww e0.1 e0.2 ++ renderAll ww erest
      from rfl, List.append_assoc]]
  rw [List.foldl_append]
  rw [processBlock ww e0.1 e0.2 (hgoodE e0 (List.mem_cons_self e0 erest)) none {}]
  rw [processBlocksHash ww erest (fun kv hkv => hgoodE kv (List.mem_cons_of_mem e0 hkv))]
  rw [pyRstrip_joinNL_entryLines (hgoodE e0 (List.mem_cons_self e0 erest)).2.2.1]
  exact foldlSet_values (e0 :: erest) {} hupE hndE (fun kv _ => rfl)

theorem parse_write_values (ww : Nat) (E : List (String × String))
    (SL : List String) (rest0 : List String)
    (hgoodE : ∀ kv ∈ E, goodEntryP ww kv)
    (hupE : ∀ kv ∈ E, pyUpper kv.1 = kv.1)
    (hndE : (E.map Prod.fst).Nodup)
    (hEne : E ≠ [])
    (hSL : SL = [] ∨ ∃ s, SL = [rstripNL s] ∧ pyStartsWith s "#!" = true ∧ '\n' ∉ s.data)
    (hrest_nl : ∀ l ∈ rest0, '\n' ∉ l.data)
    (hrest_head : ∀ x xs, rest0 = x :: xs → isCommentLine x = false) :
    (parse_header_from_lines
      ((SL ++ renderAll ww E ++ ["#"] ++ rest0).map rstripNL)).2.1.values = E := by
  cases E with
  | nil => exact absurd rfl hEne
  | cons e0 erest =>
    have hpre0 : e0.1 ≠ "PREAMBLE" := (hgoodE e0 (List.mem_cons_self e0 erest)).2.1
    obtain ⟨c0, ls0, t0, hre, hc0⟩ := renderEntry_head_hs ww e0.1 e0.2 hpre0
    have hA : renderAll ww (e0 :: erest) = c0 :: (ls0 ++ renderAll ww erest) := by
      rw [show renderAll ww (e0 :: erest) = renderEntry ww e0.1 e0.2 ++ renderAll ww erest
        from rfl, hre]
      rfl
    have hrest_map : rest0.map rstripNL = rest0 :=
      map_self_of (fun l hl => rstripNL_noop_no_nl (hrest_nl l hl))
    rcases hSL with hSL | ⟨s, hSL, hsb1, hsnl⟩
    · subst hSL
      rw [show ((([] : List String) ++ renderAll ww (e0 :: erest) ++ ["#"] ++ rest0)).map
            rstripNL
          = ((renderAll ww (e0 :: erest)).map rstripNL ++ ["#"]) ++ rest0 from by
        rw [List.nil_append, List.map_append, List.map_append, hrest_map]
        rfl]
      rw [hA, List.map_cons]
      have hsb : pyStartsWith (rstripNL c0) "#!" = false :=
        notShebang_hash_space (rstripNL_data_hs hc0)
      rw [show ((rstripNL c0 :: (ls0 ++ renderAll ww erest).map rstripNL) ++ ["#"]) ++ rest0
          = rstripNL c0 :: ((((ls0 ++ renderAll ww erest).map rstripNL) ++ ["#"]) ++ rest0)
        from rfl]
      rw [parse_cons_no_shebang _ _ hsb]
      exact parse_body_values ww e0 erest rest0 _
        (by rw [hA, List.map_cons]; rfl) hgoodE hupE hndE hrest_head
    · subst hSL
      have hsnoop : rstripNL s = s := rstripNL_noop_no_nl hsnl
      rw [show (([rstripNL s] ++ renderAll ww (e0 :: erest) ++ ["#"] ++ rest0)).map rstripNL
          = s :: (((renderAll ww (e0 :: erest)).map rstripNL ++ ["#"]) ++ rest0) from by
        rw [List.map_append, List.map_append, List.map_append, hrest_map]
        rw [show (List.map rstripNL [rstripNL s]) = [s] from by
          rw [show List.map rstripNL [rstripNL s] = [rstripNL (rstripNL s)] from rfl,
            rstripNL_idem, hsnoop]]
        rfl]
      rw [parse_cons_shebang s _ hsb1]
      exact parse_body_values ww e0 erest rest0 _ rfl hgoodE hupE hndE hrest_head

/-- C1 (amended): the serialize/re-parse round trip reproduces keys and values
only for headers in parser normal form: distinct uppercase non-`PREAMBLE` keys,
all seven fixed keys present, values whose lines are right-stripped and whose
continuation lines are not key-shaped, and a `MISSION` value left intact by the
word-wrapper.  Under these hypotheses re-parsing the written file yields every
key's value verbatim (`DATE` included, since a stored `DATE` is written back
unchanged) except `FILE`, which maps to the target's base name, and the parsed
key set is a permutation of the original. -/
theorem C1_roundtrip_amended (path : String) (shebang : Option String) (h : Header)
    (fd : List (String × JsonDoc)) (mtimeEnv : Option String) (now : String)
    (origLines : List String)
    (hwf : h.key_order = h.values.map Prod.fst)
    (hnd : (h.values.map Prod.fst).Nodup)
    (hkeys : ∀ kv ∈ h.values, isUpperAlpha kv.1 = true ∧ kv.1 ≠ "PREAMBLE")
    (hfixed : ∀ k ∈ DEFAULT_ORDER, (dictGet h.values k).isSome = true)
    (hvals : ∀ kv ∈ h.values, normalVal kv.2 = true ∧ noKeyLikeCont kv.2 = true)
    (hmission : ∀ v, dictGet h.values "MISSION" = some v →
      wrapText (get_wrap_width_from_defaults fd).toNat v = pySplitlines v)
    (hbase : normalVal (basename path) = true ∧ noKeyLikeCont (basename path) = true)
    (hsheb : ∀ s, shebang = some s → pyStartsWith s "#!" = true ∧ '\n' ∉ s.data)
    (horig : ∀ l ∈ origLines, '\n' ∉ l.data) :
    let parsed := (parse_header_from_lines
        (write_header_to_file path shebang h fd mtimeEnv now origLines)).2.1
    (∀ kk : String, kk ≠ "FILE" → dictGet parsed.values kk = dictGet h.values kk) ∧
    dictGet parsed.values "FILE" = some (basename path) ∧
    List.Perm (parsed.values.map Prod.fst) (h.values.map Prod.fst) := by
  intro parsed
  have hFILEsome : (dictGet h.values "FILE").isSome = true := hfixed "FILE" (by decide)
  have hko_nd : h.key_order.Nodup := by rw [hwf]; exact hnd
  have hget_set : ∀ kk : String, kk ≠ "FILE" →
      dictGet (h.set "FILE" (basename path)).values kk = dictGet h.values kk := by
    intro kk hkk
    show dictGet (dictSet h.values (pyUpper "FILE") (basename path)) kk = _
    rw [show pyUpper "FILE" = "FILE" from by decide]
    exact dictGet_dictSet_ne _ _ _ _ (fun he => hkk he.symm)
  have hstored : ∀ kk, kk ∈ h.values.map Prod.fst → ∃ v, dictGet h.values kk = some v := by
    intro kk hkk
    cases hx : dictGet h.values kk with
    | none =>
      have hs2 := mem_keys_dictGet_isSome hkk
      rw [hx] at hs2
      cases hs2
    | some v => exact ⟨v, rfl⟩
  have hDOgood : ∀ kk ∈ DEFAULT_ORDER, isUpperAlpha kk = true ∧ kk ≠ "PREAMBLE" := by decide
  have hXmem : ∀ kk ∈ h.key_order.filter (fun x => !DEFAULT_ORDER.contains x),
      kk ∈ h.key_order ∧ kk ∉ DEFAULT_ORDER := by
    intro kk hkk
    rw [List.mem_filter] at hkk
    refine ⟨hkk.1, ?_⟩
    intro hD
    have h2 := hkk.2
    rw [(contains_true_iff _ _).mpr hD] at h2
    simp at h2
  have hDOv : ∀ kk ∈ DEFAULT_ORDER, kk ≠ "FILE" → ∃ v, dictGet h.values kk = some v ∧
      fixedVal (h.set "FILE" (basename path)) fd (some path) mtimeEnv now kk = v := by
    intro kk hkD hkF
    obtain ⟨v, hv⟩ := hstored kk (dictGet_isSome_mem (hfixed kk hkD))
    refine ⟨v, hv, ?_⟩
    apply fixedVal_of_some
    · rw [hget_set kk hkF]
      exact hv
    · exact hkF
  have hXv : ∀ kk, kk ∈ h.key_order → kk ≠ "FILE" → ∃ v, dictGet h.values kk = some v ∧
      (dictGet (h.set "FILE" (basename path)).values kk).getD
        (default_for fd (some path) mtimeEnv now kk) = v := by
    intro kk hkk hkF
    obtain ⟨v, hv⟩ := hstored kk (hwf ▸ hkk)
    refine ⟨v, hv, ?_⟩
    rw [hget_set kk hkF, hv]
    rfl
  have hEgood : ∀ kv ∈ (DEFAULT_ORDER.map (fun k =>
        (k, fixedVal (h.set "FILE" (basename path)) fd (some path) mtimeEnv now k))
      ++ (h.key_order.filter (fun x => !DEFAULT_ORDER.contains x)).map
          (fun k => (k, (dictGet (h.set "FILE" (basename path)).values k).getD
            (default_for fd (some path) mtimeEnv now k)))),
      goodEntryP (get_wrap_width_from_defaults fd).toNat kv := by
    intro kv hkv
    rcases List.mem_append.mp hkv with hkv | hkv
    · obtain ⟨kk, hkD, hkve⟩ := List.mem_map.mp hkv
      subst hkve
      by_cases hkF : kk = "FILE"
      · subst hkF
        rw [fixedVal_file_some_path]
        exact ⟨(hDOgood "FILE" (by decide)).1, (hDOgood "FILE" (by decide)).2, hbase.1,
          hbase.2, fun hM => absurd (show "FILE" = "MISSION" from hM) (by decide)⟩
      · obtain ⟨v, hv, hfv⟩ := hDOv kk hkD hkF
        rw [hfv]
        have hmem := dictGet_some_mem hv
        refine ⟨(hDOgood kk hkD).1, (hDOgood kk hkD).2, (hvals (kk, v) hmem).1,
          (hvals (kk, v) hmem).2, ?_⟩
        intro hkM
        show wrapText (get_wrap_width_from_defaults fd).toNat v = pySplitlines v
        apply hmission
        rw [← hkM]
        exact hv
    · obtain ⟨kk, hkX, hkve⟩ := List.mem_map.mp hkv
      subst hkve
      obtain ⟨hkko, hkD⟩ := hXmem kk hkX
      have hkF : kk ≠ "FILE" := fun he => hkD (by rw [he]; decide)
      obtain ⟨v, hv, hgv⟩ := hXv kk hkko hkF
      rw [hgv]
      have hmem := dictGet_some_mem hv
      exact ⟨(hkeys (kk, v) hmem).1, (hkeys (kk, v) hmem).2, (hvals (kk, v) hmem).1,
        (hvals (kk, v) hmem).2,
        fun hM => absurd (by decide : "MISSION" ∈ DEFAULT_ORDER) (hM ▸ hkD)⟩
  have hEup : ∀ kv ∈ (DEFAULT_ORDER.map (fun k =>
        (k, fixedVal (h.set "FILE" (basename path)) fd (some path) mtimeEnv now k))
      ++ (h.key_order.filter (fun x => !DEFAULT_ORDER.contains x)).map
          (fun k => (k, (dictGet (h.set "FILE" (basename path)).values k).getD
            (default_for fd (some path) mtimeEnv now k)))),
      pyUpper kv.1 = kv.1 :=
    fun kv hkv => pyUpper_upperAlpha (hEgood kv hkv).1
  have hEfst : ((DEFAULT_ORDER.map (fun k =>
        (k, fixedVal (h.set "FILE" (basename path)) fd (some path) mtimeEnv now k))
      ++ (h.key_order.filter (fun x => !DEFAULT_ORDER.contains x)).map
          (fun k => (k, (dictGet (h.set "FILE" (basename path)).values k).getD
            (default_for fd (some path) mtimeEnv now k)))).map Prod.fst)
      = DEFAULT_ORDER ++ h.key_order.filter (fun x => !DEFAULT_ORDER.contains x) := by
    rw [List.map_append, map_fst_keyed, map_fst_keyed]
  have hDOnd : DEFAULT_ORDER.Nodup := by decide
  have hEnd : (((DEFAULT_ORDER.map (fun k =>
        (k, fixedVal (h.set "FILE" (basename path)) fd (some path) mtimeEnv now k))
      ++ (h.key_order.filter (fun x => !DEFAULT_ORDER.contains x)).map
          (fun k => (k, (dictGet (h.set "FILE" (basename path)).values k).getD
            (default_for fd (some path) mtimeEnv now k)))).map Prod.fst)).Nodup := by
    rw [hEfst]
    apply List.nodup_append.mpr
    exact ⟨hDOnd, hko_nd.filter _, fun a haD haF => (hXmem a haF).2 haD⟩
  have hEne : (DEFAULT_ORDER.map (fun k =>
        (k, fixedVal (h.set "FILE" (basename path)) fd (some path) mtimeEnv now k))
      ++ (h.key_order.filter (fun x => !DEFAULT_ORDER.contains x)).map
          (fun k => (k, (dictGet (h.set "FILE" (basename path)).values k).getD
            (default_for fd (some path) mtimeEnv now k)))) ≠ [] :=
    fun hc => List.cons_ne_nil _ _ hc
  have hEget : ∀ kk : String, dictGet (DEFAULT_ORDER.map (fun k =>
        (k, fixedVal (h.set "FILE" (basename path)) fd (some path) mtimeEnv now k))
      ++ (h.key_order.filter (fun x => !DEFAULT_ORDER.contains x)).map
          (fun k => (k, (dictGet (h.set "FILE" (basename path)).values k).getD
            (default_for fd (some path) mtimeEnv now k)))) kk
      = if kk = "FILE" then some (basename path) else dictGet h.values kk := by
    intro kk
    rw [dictGet_append]
    by_cases hkD : kk ∈ DEFAULT_ORDER
    · rw [dictGet_map_self DEFAULT_ORDER _ kk hkD]
      by_cases hkF : kk = "FILE"
      · subst hkF
        rw [if_pos rfl]
        show some (fixedVal (h.set "FILE" (basename path)) fd (some path) mtimeEnv now "FILE")
            = some (basename path)
        rw [fixedVal_file_some_path]
      · rw [if_neg hkF]
        obtain ⟨v, hv, hfv⟩ := hDOv kk hkD hkF
        show some (fixedVal (h.set "FILE" (basename path)) fd (some path) mtimeEnv now kk)
            = dictGet h.values kk
        rw [hfv, hv]
    · have hkF : kk ≠ "FILE" := fun he => hkD (by rw [he]; decide)
      rw [dictGet_map_none DEFAULT_ORDER _ kk hkD, if_neg hkF]
      show dictGet ((h.key_order.filter (fun x => !DEFAULT_ORDER.contains x)).map
          (fun k => (k, (dictGet (h.set "FILE" (basename path)).values k).getD
            (default_for fd (some path) mtimeEnv now k)))) kk = dictGet h.values kk
      by_cases hkko : kk ∈ h.key_order
      · have hkfil : kk ∈ h.key_order.filter (fun x => !DEFAULT_ORDER.contains x) := by
          rw [List.mem_filter]
          exact ⟨hkko, by rw [(contains_false_iff _ _).mpr hkD]; rfl⟩
        rw [dictGet_map_self _ _ kk hkfil]
        obtain ⟨v, hv, hgv⟩ := hXv kk hkko hkF
        rw [hgv, hv]
      · have hknofil : kk ∉ h.key_order.filter (fun x => !DEFAULT_ORDER.contains x) :=
          fun hmm => hkko (List.mem_filter.mp hmm).1
        rw [dictGet_map_none _ _ kk hknofil]
        rw [dictGet_none_of_not_mem (fun hmm => hkko (by rw [hwf]; exact hmm))]
  have hDOsub : ∀ kk ∈ DEFAULT_ORDER, kk ∈ h.key_order := by
    intro kk hkD
    rw [hwf]
    exact dictGet_isSome_mem (hfixed kk hkD)
  have hPerm : List.Perm (((DEFAULT_ORDER.map (fun k =>
        (k, fixedVal (h.set "FILE" (basename path)) fd (some path) mtimeEnv now k))
      ++ (h.key_order.filter (fun x => !DEFAULT_ORDER.contains x)).map
          (fun k => (k, (dictGet (h.set "FILE" (basename path)).values k).getD
            (default_for fd (some path) mtimeEnv now k)))).map Prod.fst))
      (h.values.map Prod.fst) := by
    rw [hEfst, ← hwf]
    have h1 : List.Perm DEFAULT_ORDER
        (h.key_order.filter (fun x => DEFAULT_ORDER.contains x)) := by
      apply (List.perm_ext_iff_of_nodup hDOnd (hko_nd.filter _)).mpr
      intro a
      constructor
      · intro ha
        rw [List.mem_filter]
        exact ⟨hDOsub a ha, (contains_true_iff _ _).mpr ha⟩
      · intro ha
        rw [List.mem_filter] at ha
        exact (contains_true_iff _ _).mp ha.2
    have h2 := List.filter_append_perm (fun x => DEFAULT_ORDER.contains x) h.key_order
    exact (h1.append_right _).trans h2
  have hrf := parse_rest_facts origLines horig
  have horigmap : origLines.map rstripNL = origLines :=
    map_self_of (fun l hl => rstripNL_noop_no_nl (horig l hl))
  have hent := ordered_entries_char h fd path mtimeEnv now hwf hnd hFILEsome
  have hvalsE : parsed.values = DEFAULT_ORDER.map (fun k =>
        (k, fixedVal (h.set "FILE" (basename path)) fd (some path) mtimeEnv now k))
      ++ (h.key_order.filter (fun x => !DEFAULT_ORDER.contains x)).map
          (fun k => (k, (dictGet (h.set "FILE" (basename path)).values k).getD
            (default_for fd (some path) mtimeEnv now k))) := by
    show (parse_header_from_lines
      (write_header_to_file path shebang h fd mtimeEnv now origLines)).2.1.values = _
    simp only [write_header_to_file]
    rw [horigmap, hent]
    refine parse_write_values _ _ _ _ hEgood hEup hEnd hEne ?_ hrf.1 hrf.2
    cases shebang with
    | none => exact Or.inl rfl
    | some s => exact Or.inr ⟨s, rfl, (hsheb s rfl).1, (hsheb s rfl).2⟩
  refine ⟨?_, ?_, ?_⟩
  · intro kk hkk
    rw [hvalsE, hEget kk, if_neg hkk]
  · rw [hvalsE, hEget "FILE", if_pos rfl]
  · rw [hvalsE]
    exact hPerm

/-- C1 counterexample: for a header whose `NOTES` value contains the physical
line `B: c`, serializing with `write_header_to_file` and re-parsing with
`parse_header_from_lines` does not reproduce the keys and value-line
sequences: the continuation line re-parses as a new key `B` with value `c`,
and `NOTES` loses its second line, refuting the unconditional round-trip
claim (neither `FILE` nor `DATE` is involved). -/
theorem C1_counterexample :
    dictGet (parse_header_from_lines (write_header_to_file "d/f.py" none
      { key_order := ["MISSION", "STATUS", "VERSION", "NOTES", "DATE", "FILE", "AUTHOR"],
        values := [("MISSION", "m"), ("STATUS", "s"), ("VERSION", "0.1.2"),
          ("NOTES", "a\nB: c"), ("DATE", "D"), ("FILE", "f.py"), ("AUTHOR", "al")],
        raw_comment_lines := [] } [] (some "MT") "NOW" ["x = 1"])).2.1.values "B"
      = some "c" ∧
    dictGet ({ key_order := ["MISSION", "STATUS", "VERSION", "NOTES", "DATE", "FILE", "AUTHOR"],
               values := [("MISSION", "m"), ("STATUS", "s"), ("VERSION", "0.1.2"),
                 ("NOTES", "a\nB: c"), ("DATE", "D"), ("FILE", "f.py"), ("AUTHOR", "al")],
               raw_comment_lines := [] } : Header).values "B" = none ∧
    dictGet (parse_header_from_lines (write_header_to_file "d/f.py" none
      { key_order := ["MISSION", "STATUS", "VERSION", "NOTES", "DATE", "FILE", "AUTHOR"],
        values := [("MISSION", "m"), ("STATUS", "s"), ("VERSION", "0.1.2"),
          ("NOTES", "a\nB: c"), ("DATE", "D"), ("FILE", "f.py"), ("AUTHOR", "al")],
        raw_comment_lines := [] } [] (some "MT") "NOW" ["x = 1"])).2.1.values "NOTES"
      = some "a" ∧
    dictGet ({ key_order := ["MISSION", "STATUS", "VERSION", "NOTES", "DATE", "FILE", "AUTHOR"],
               values := [("MISSION", "m"), ("STATUS", "s"), ("VERSION", "0.1.2"),
                 ("NOTES", "a\nB: c"), ("DATE", "D"), ("FILE", "f.py"), ("AUTHOR", "al")],
               raw_comment_lines := [] } : Header).values "NOTES" = some "a\nB: c" := by
  decide

theorem C1_roundtrip_amended_witness :
    dictGet (parse_header_from_lines (write_header_to_file "d/f.py" none
      { key_order := ["MISSION", "STATUS", "VERSION", "NOTES", "DATE", "FILE", "AUTHOR"],
        values := [("MISSION", "m"), ("STATUS", "s"), ("VERSION", "0.1.2"),
          ("NOTES", "a"), ("DATE", "D"), ("FILE", "old.py"), ("AUTHOR", "al")],
        raw_comment_lines := [] } [] (some "MT") "NOW" ["x = 1"])).2.1.values "NOTES"
      = some "a" ∧
    dictGet (parse_header_from_lines (write_header_to_file "d/f.py" none
      { key_order := ["MISSION", "STATUS", "VERSION", "NOTES", "DATE", "FILE", "AUTHOR"],
        values := [("MISSION", "m"), ("STATUS", "s"), ("VERSION", "0.1.2"),
          ("NOTES", "a"), ("DATE", "D"), ("FILE", "old.py"), ("AUTHOR", "al")],
        raw_comment_lines := [] } [] (some "MT") "NOW" ["x = 1"])).2.1.values "FILE"
      = some "f.py" := by
  have hres := C1_roundtrip_amended "d/f.py" none
    { key_order := ["MISSION", "STATUS", "VERSION", "NOTES", "DATE", "FILE", "AUTHOR"],
      values := [("MISSION", "m"), ("STATUS", "s"), ("VERSION", "0.1.2"),
        ("NOTES", "a"), ("DATE", "D"), ("FILE", "old.py"), ("AUTHOR", "al")],
      raw_comment_lines := [] } [] (some "MT") "NOW" ["x = 1"]
    (by decide) (by decide) (by decide) (by decide) (by decide)
    (by
      intro v hv
      have hv2 : some "m" = some v := hv
      injection hv2 with h2
      rw [← h2]
      decide)
    (by decide)
    (fun s hs => nomatch hs)
    (by decide)
  refine ⟨?_, ?_⟩
  · rw [hres.1 "NOTES" (by decide)]
    decide
  · rw [hres.2.1]
    decide

end BeHeaded
